import Mathlib

/-!
# Verification of the chat-server core (codec and server engine)

Shallow embedding of `chatproto`:
* `Proto.encode` / `Proto.decode` embed `src/chatproto/src/netproto/encode.rs`
  and `decode.rs` (byte streams are `List Nat`, every byte `< 256`);
* the `Engine` namespace embeds the server state machine of
  `src/chatproto/src/solutions/descamps_femery.rs` (the lock-protected hash
  maps become association lists, asynchronous operations become pure state
  transformers).
-/

set_option maxHeartbeats 1000000

namespace Proto

/-- Outcome of running a decoder on a byte stream: `ok value rest` on
success, `err msg` for a typed error (`anyhow::Error` in the source), and
`crash` when the Rust code would panic (`unwrap` on an `Err`). -/
inductive DecResult (α : Type) where
  | ok : α → List Nat → DecResult α
  | err : String → DecResult α
  | crash : DecResult α
  deriving Repr, DecidableEq

/-- A decoder: consumes a prefix of the byte stream. -/
def Dec (α : Type) : Type := List Nat → DecResult α

instance : Monad Dec where
  pure a := fun s => .ok a s
  bind m f := fun s =>
    match m s with
    | .ok a rest => f a rest
    | .err e => .err e
    | .crash => .crash

/-- `ReadBytesExt::read_u8`: one byte, EOF is an I/O error. -/
def read_u8 : Dec Nat := fun s =>
  match s with
  | [] => .err "failed to fill whole buffer"
  | b :: rest => .ok b rest

/-- Read `n` raw bytes (`Read::read_exact`): fails on short input. -/
def readBytes (n : Nat) : Dec (List Nat) := fun s =>
  if n ≤ s.length then .ok (s.take n) (s.drop n)
  else .err "failed to fill whole buffer"

/-- A typed decode failure (`anyhow::anyhow!`). -/
def fail {α : Type} (msg : String) : Dec α := fun _ => .err msg

/-- Little-endian bytes of `m`, `n` bytes wide (`write_u16/u32/u64/u128`). -/
def leBytes (n : Nat) (m : Nat) : List Nat :=
  match n with
  | 0 => []
  | k + 1 => m % 256 :: leBytes k (m / 256)

/-- Value of a little-endian byte list (`read_u16/u32/u64/u128`). -/
def leValue (bs : List Nat) : Nat :=
  match bs with
  | [] => 0
  | b :: rest => b + 256 * leValue rest

/-- Read an `n`-byte little-endian unsigned integer. -/
def readLE (n : Nat) : Dec Nat := do
  let bs ← readBytes n
  pure (leValue bs)

namespace encode

/-- `encode::u128` — the `vu128` variable-length integer encoding. -/
def u128 (m : Nat) : List Nat :=
  if m < 251 then [m]
  else if m < 2 ^ 16 then 251 :: leBytes 2 m
  else if m < 2 ^ 32 then 252 :: leBytes 4 m
  else if m < 2 ^ 64 then 253 :: leBytes 8 m
  else 254 :: leBytes 16 m

end encode

namespace decode

/-- `decode::u128` — reads one `vu128` value. -/
def u128 : Dec Nat := do
  let pfx ← read_u8
  if pfx ≤ 250 then pure pfx
  else if pfx = 251 then readLE 2
  else if pfx = 252 then readLE 4
  else if pfx = 253 then readLE 8
  else if pfx = 254 then readLE 16
  else fail "Invalid prefix byte for u128 encoding"

end decode

/-- A 128-bit UUID, as its 16 raw bytes (`uuid::Uuid`, `as_bytes`). -/
structure Uuid where
  bytes : List Nat
  deriving Repr, DecidableEq

/-- Well-formed UUID: 16 bytes, each an octet. -/
def Uuid.WF (u : Uuid) : Prop := u.bytes.length = 16 ∧ ∀ b ∈ u.bytes, b < 256

/-- `ClientId(Uuid)` — newtype over a UUID. -/
structure ClientId where
  toUuid : Uuid
  deriving Repr, DecidableEq

/-- `ServerId(Uuid)` — newtype over a UUID. -/
structure ServerId where
  toUuid : Uuid
  deriving Repr, DecidableEq

/-- Rust `String` | `&str` as its UTF-8 bytes (`as_bytes`). -/
structure Str where
  bytes : List Nat
  deriving Repr, DecidableEq

namespace encode

/-- `encode::uuid`: a literal byte 16, then the 16 raw bytes. -/
def uuid (m : Uuid) : List Nat := 16 :: m.bytes

/-- `encode::clientid`. -/
def clientid (m : ClientId) : List Nat := uuid m.toUuid

/-- `encode::serverid`. -/
def serverid (m : ServerId) : List Nat := uuid m.toUuid

/-- `encode::string`: `vu128` byte length, then the raw bytes. -/
def string (m : Str) : List Nat := u128 m.bytes.length ++ m.bytes

end encode

namespace decode

/-- `decode::uuid`. The source reads the marker byte with
`rd.read_u8().unwrap()`: on an empty stream the `Err` is unwrapped and the
process panics (`crash`), instead of surfacing a typed error. -/
def uuid : Dec Uuid := fun s =>
  match read_u8 s with
  | .ok b rest =>
      if b = 16 then
        (do
          let buffer ← readBytes 16
          pure (Uuid.mk buffer)) rest
      else
        .err "Invalid prefix byte for u8 encoding"
  | .err _ => .crash
  | .crash => .crash

/-- `decode::clientid`. -/
def clientid : Dec ClientId := do
  let u ← uuid
  pure (ClientId.mk u)

/-- `decode::serverid`. -/
def serverid : Dec ServerId := do
  let u ← uuid
  pure (ServerId.mk u)

/-- UTF-8 validity of a byte list (`String::from_utf8` succeeds), following
RFC 3629: the well-formed byte sequences are U+0000..U+007F one-byte,
U+0080..U+07FF two-byte, U+0800..U+FFFF three-byte (minus surrogates),
U+10000..U+10FFFF four-byte. -/
def validUtf8 : List Nat → Bool
  | [] => true
  | b0 :: rest =>
    if b0 < 0x80 then validUtf8 rest
    else if 0xC2 ≤ b0 ∧ b0 ≤ 0xDF then
      match rest with
      | b1 :: rest1 => decide (0x80 ≤ b1 ∧ b1 ≤ 0xBF) && validUtf8 rest1
      | _ => false
    else if b0 = 0xE0 then
      match rest with
      | b1 :: b2 :: rest2 =>
          decide (0xA0 ≤ b1 ∧ b1 ≤ 0xBF ∧ 0x80 ≤ b2 ∧ b2 ≤ 0xBF) && validUtf8 rest2
      | _ => false
    else if 0xE1 ≤ b0 ∧ b0 ≤ 0xEC then
      match rest with
      | b1 :: b2 :: rest2 =>
          decide (0x80 ≤ b1 ∧ b1 ≤ 0xBF ∧ 0x80 ≤ b2 ∧ b2 ≤ 0xBF) && validUtf8 rest2
      | _ => false
    else if b0 = 0xED then
      match rest with
      | b1 :: b2 :: rest2 =>
          decide (0x80 ≤ b1 ∧ b1 ≤ 0x9F ∧ 0x80 ≤ b2 ∧ b2 ≤ 0xBF) && validUtf8 rest2
      | _ => false
    else if 0xEE ≤ b0 ∧ b0 ≤ 0xEF then
      match rest with
      | b1 :: b2 :: rest2 =>
          decide (0x80 ≤ b1 ∧ b1 ≤ 0xBF ∧ 0x80 ≤ b2 ∧ b2 ≤ 0xBF) && validUtf8 rest2
      | _ => false
    else if b0 = 0xF0 then
      match rest with
      | b1 :: b2 :: b3 :: rest3 =>
          decide (0x90 ≤ b1 ∧ b1 ≤ 0xBF ∧ 0x80 ≤ b2 ∧ b2 ≤ 0xBF ∧
            0x80 ≤ b3 ∧ b3 ≤ 0xBF) && validUtf8 rest3
      | _ => false
    else if 0xF1 ≤ b0 ∧ b0 ≤ 0xF3 then
      match rest with
      | b1 :: b2 :: b3 :: rest3 =>
          decide (0x80 ≤ b1 ∧ b1 ≤ 0xBF ∧ 0x80 ≤ b2 ∧ b2 ≤ 0xBF ∧
            0x80 ≤ b3 ∧ b3 ≤ 0xBF) && validUtf8 rest3
      | _ => false
    else if b0 = 0xF4 then
      match rest with
      | b1 :: b2 :: b3 :: rest3 =>
          decide (0x80 ≤ b1 ∧ b1 ≤ 0x8F ∧ 0x80 ≤ b2 ∧ b2 ≤ 0xBF ∧
            0x80 ≤ b3 ∧ b3 ≤ 0xBF) && validUtf8 rest3
      | _ => false
    else false

/-- `decode::string`: `vu128` length, that many raw bytes, UTF-8 check. -/
def string : Dec Str := do
  let size ← u128
  let buf ← readBytes size
  if validUtf8 buf then pure (Str.mk buf)
  else fail "invalid utf-8 sequence"

end decode

/-- `FullyQualifiedMessage` (wire form). -/
structure FullyQualifiedMessage where
  src : ClientId
  srcsrv : ServerId
  dsts : List (ClientId × ServerId)
  content : Str
  deriving Repr, DecidableEq

/-- `ServerMessage`. The `clients` hash map of `Announce` is modelled as an
association list in the (arbitrary) order the encoder iterates it. -/
inductive ServerMessage where
  | Announce : List ServerId → List (ClientId × Str) → ServerMessage
  | Message : FullyQualifiedMessage → ServerMessage
  deriving Repr, DecidableEq

/-- `ClientError`. -/
inductive ClientError where
  | UnknownClient : ClientError
  | BoxFull : ClientId → ClientError
  | InternalError : ClientError
  deriving Repr, DecidableEq

/-- `ClientReply`. -/
inductive ClientReply where
  | Delivered : ClientReply
  | Error : ClientError → ClientReply
  | Delayed : ClientReply
  | Transfer : ServerId → ServerMessage → ClientReply
  deriving Repr, DecidableEq

namespace encode

/-- `encode::server` (tag, then the variant's fields in order). -/
def server (m : ServerMessage) : List Nat :=
  match m with
  | .Announce route clients =>
      0 :: (u128 route.length ++ (route.map serverid).flatten ++
        u128 clients.length ++
        (clients.map (fun p => clientid p.1 ++ string p.2)).flatten)
  | .Message fqm =>
      1 :: (clientid fqm.src ++ serverid fqm.srcsrv ++
        u128 fqm.dsts.length ++
        (fqm.dsts.map (fun p => clientid p.1 ++ serverid p.2)).flatten ++
        string fqm.content)

/-- One `ClientReply`, as the `client_replies` loop body writes it. -/
def clientReplyOne (rep : ClientReply) : List Nat :=
  match rep with
  | .Delivered => [0]
  | .Error e =>
      1 :: (match e with
        | .UnknownClient => [0]
        | .BoxFull cid => 1 :: clientid cid
        | .InternalError => [2])
  | .Delayed => [2]
  | .Transfer sid sm => 3 :: (serverid sid ++ server sm)

/-- `encode::client_replies`: the source iterates over the slice writing
each element — it writes NO `vu128` count prefix. -/
def client_replies (m : List ClientReply) : List Nat :=
  (m.map clientReplyOne).flatten

end encode

namespace decode

/-- Decode `count` items with a decoder `d` (a `for _ in 0..count` loop). -/
def countList {α : Type} (d : Dec α) : Nat → Dec (List α)
  | 0 => pure []
  | n + 1 => do
      let x ← d
      let xs ← countList d n
      pure (x :: xs)

/-- `decode::server`. -/
def server : Dec ServerMessage := do
  let variant ← read_u8
  if variant = 0 then do
    let nbRoutes ← u128
    let route ← countList serverid nbRoutes
    let nbClients ← u128
    let clients ← countList (do
      let c ← clientid
      let s ← string
      pure (c, s)) nbClients
    pure (ServerMessage.Announce route clients)
  else if variant = 1 then do
    let src ← clientid
    let srcsrv ← serverid
    let nbDsts ← u128
    let dsts ← countList (do
      let c ← clientid
      let s ← serverid
      pure (c, s)) nbDsts
    let content ← string
    pure (ServerMessage.Message ⟨src, srcsrv, dsts, content⟩)
  else fail "Invalid ServerMessage"

/-- One `ClientReply`, as the `client_replies` loop body reads it. -/
def clientReplyOne : Dec ClientReply := do
  let variant ← read_u8
  if variant = 0 then pure ClientReply.Delivered
  else if variant = 1 then do
    let errorVariant ← read_u8
    if errorVariant = 0 then pure (ClientReply.Error ClientError.UnknownClient)
    else if errorVariant = 1 then do
      let c ← clientid
      pure (ClientReply.Error (ClientError.BoxFull c))
    else if errorVariant = 2 then pure (ClientReply.Error ClientError.InternalError)
    else fail "Invalid ClientError variant"
  else if variant = 2 then pure ClientReply.Delayed
  else if variant = 3 then do
    let sid ← serverid
    let sm ← server
    pure (ClientReply.Transfer sid sm)
  else fail "Invalid ClientReply variant"

/-- `decode::client_replies`: reads a `vu128` count, then that many
replies. -/
def client_replies : Dec (List ClientReply) := do
  let nbReplies ← u128
  countList clientReplyOne nbReplies

end decode

end Proto

namespace Engine

/-- `ClientId`: a 128-bit unique value, compared by raw bits. -/
abbrev ClientId := Nat

/-- `ServerId`: a 128-bit unique value, compared by raw bits. -/
abbrev ServerId := Nat

/-- Association-list model of `HashMap::get`. -/
def alGet {β : Type} : List (Nat × β) → Nat → Option β
  | [], _ => none
  | (k, v) :: rest, key => if k = key then some v else alGet rest key

/-- Association-list model of `HashMap::insert`: replace the value in place
if the key is present, otherwise append the new binding. -/
def alSet {β : Type} : List (Nat × β) → Nat → β → List (Nat × β)
  | [], key, value => [(key, value)]
  | (k, v) :: rest, key, value =>
      if k = key then (k, value) :: rest else (k, v) :: alSet rest key value

/-- Association-list model of `HashMap::remove` (drops the binding). -/
def alRemove {β : Type} : List (Nat × β) → Nat → List (Nat × β)
  | [], _ => []
  | (k, v) :: rest, key => if k = key then rest else (k, v) :: alRemove rest key

/-- `Client` (`descamps_femery.rs`): a local client. The mailbox is a
`VecDeque<(ClientId, String)>`; its head is the front. -/
structure Client where
  src_ip : Nat
  name : String
  seqid : Nat
  mailbox : List (ClientId × String)
  deriving Repr, DecidableEq

/-- `RemoteClient`. -/
structure RemoteClient where
  name : String
  srcsrv : ServerId
  deriving Repr, DecidableEq

/-- `Message` (a stored/deferred message). -/
structure Message where
  src : ClientId
  content : String
  deriving Repr, DecidableEq

/-- `FullyQualifiedMessage` (engine view). -/
structure FullyQualifiedMessage where
  src : ClientId
  srcsrv : ServerId
  dsts : List (ClientId × ServerId)
  content : String
  deriving Repr, DecidableEq

/-- `ClientMessage`. -/
inductive ClientMessage where
  | Text : ClientId → String → ClientMessage
  | MText : List ClientId → String → ClientMessage
  deriving Repr, DecidableEq

/-- `ServerMessage` (engine view); the `Announce` client map is an
association list in iteration order. -/
inductive ServerMessage where
  | Announce : List ServerId → List (ClientId × String) → ServerMessage
  | Message : FullyQualifiedMessage → ServerMessage
  deriving Repr, DecidableEq

/-- `ClientError`. -/
inductive ClientError where
  | UnknownClient : ClientError
  | BoxFull : ClientId → ClientError
  | InternalError : ClientError
  deriving Repr, DecidableEq

/-- `ClientReply`. -/
inductive ClientReply where
  | Delivered : ClientReply
  | Error : ClientError → ClientReply
  | Delayed : ClientReply
  | Transfer : ServerId → ServerMessage → ClientReply
  deriving Repr, DecidableEq

/-- `ClientPollReply` (`DelayedError` is always `UnknownRecipient`). -/
inductive ClientPollReply where
  | Message : ClientId → String → ClientPollReply
  | DelayedError : ClientId → ClientPollReply
  | Nothing : ClientPollReply
  deriving Repr, DecidableEq

/-- `Outgoing`: a message to forward, with its next hop. -/
structure Outgoing where
  nexthop : ServerId
  message : FullyQualifiedMessage
  deriving Repr, DecidableEq

/-- `ServerReply`. -/
inductive ServerReply where
  | Outgoing : List Outgoing → ServerReply
  | EmptyRoute : ServerReply
  | Error : String → ServerReply
  deriving Repr, DecidableEq

/-- `Sequence<A>`: a client envelope with a `u128` sequence id. -/
structure Sequence (A : Type) where
  seqid : Nat
  src : ClientId
  content : A
  deriving Repr, DecidableEq

/-- `Server` state (the four lock-protected hash maps, as association
lists; the spam checker is external and does not live in the state). -/
structure Server where
  id : ServerId
  clients : List (ClientId × Client)
  routes : List (List ServerId)
  remote_clients : List (ClientId × RemoteClient)
  stored_messages : List (ClientId × Message)
  deriving Repr, DecidableEq

/-- `Server::new`. -/
def Server.new (id : ServerId) : Server := ⟨id, [], [], [], []⟩

/-- `get_srv_dist`: `route.first().unwrap()`. Every stored route is
non-empty (`Announce` rejects empty routes), so the `unwrap` cannot fire;
the default is dead code. -/
def get_srv_dist (route : List ServerId) : ServerId := route.headD 0

/-- `get_nexthop`: `route.last().unwrap()`; same remark as `get_srv_dist`. -/
def get_nexthop (route : List ServerId) : ServerId := route.getLastD 0

/-- `register_local_client`. The two asynchronous spam checks are modelled
by their observed outcomes (`none` = timeout or error), and the freshly
generated `Uuid::new_v4` by the parameter `freshId`. -/
def register_local_client (st : Server) (src_ip : Nat) (name : String)
    (ipCheck userCheck : Option Bool) (freshId : ClientId) :
    Option ClientId × Server :=
  match ipCheck, userCheck with
  | some ipResult, some userResult =>
      if ¬ipResult ∧ ¬userResult then
        (some freshId,
          { st with clients := alSet st.clients freshId ⟨src_ip, name, 0, []⟩ })
      else (none, st)
  | _, _ => (none, st)

/-- `handle_sequenced_message`. -/
def handle_sequenced_message {A : Type} (st : Server) (sequence : Sequence A) :
    Except ClientError A × Server :=
  match alGet st.clients sequence.src with
  | some client =>
      if client.seqid < sequence.seqid then
        let client' := { client with seqid := sequence.seqid }
        (Except.ok sequence.content,
          { st with clients := alSet st.clients sequence.src client' })
      else (Except.error ClientError.InternalError, st)
  | none => (Except.error ClientError.UnknownClient, st)

/-- `client_message` (private helper): deliver one client-originated
message, parameterised by the host-supplied constant `MAILBOX_SIZE`. -/
def client_message (MAILBOX_SIZE : Nat) (st : Server) (src dest : ClientId)
    (content : String) : ClientReply × Server :=
  match alGet st.clients dest with
  | some client =>
      if client.mailbox.length = MAILBOX_SIZE then
        (ClientReply.Error (ClientError.BoxFull dest), st)
      else
        let client' := { client with mailbox := client.mailbox ++ [(src, content)] }
        (ClientReply.Delivered,
          { st with clients := alSet st.clients dest client' })
  | none =>
      match alGet st.remote_clients dest with
      | some remoteInfo =>
          match st.routes.find? (fun route => get_srv_dist route == remoteInfo.srcsrv) with
          | some route =>
              (ClientReply.Transfer (get_nexthop route)
                (ServerMessage.Message
                  ⟨src, st.id, [(dest, get_srv_dist route)], content⟩), st)
          | none => (ClientReply.Error ClientError.UnknownClient, st)
      | none =>
          (ClientReply.Delayed,
            { st with stored_messages := alSet st.stored_messages dest ⟨src, content⟩ })

/-- `handle_client_message`: `Text` delivers once, `MText` delivers to each
destination in order, threading the state. -/
def handle_client_message (MAILBOX_SIZE : Nat) (st : Server) (src : ClientId)
    (msg : ClientMessage) : List ClientReply × Server :=
  match msg with
  | .Text dest content =>
      let (r, st') := client_message MAILBOX_SIZE st src dest content
      ([r], st')
  | .MText dests content =>
      dests.foldl
        (fun acc dst =>
          let (r, st') := client_message MAILBOX_SIZE acc.2 src dst content
          (acc.1 ++ [r], st'))
        ([], st)

/-- `client_poll`: pop the front of the mailbox. -/
def client_poll (st : Server) (client : ClientId) : ClientPollReply × Server :=
  match alGet st.clients client with
  | some clt =>
      match clt.mailbox with
      | [] => (ClientPollReply.Nothing, st)
      | (src, content) :: rest =>
          (ClientPollReply.Message src content,
            { st with clients := alSet st.clients client { clt with mailbox := rest } })
  | none => (ClientPollReply.DelayedError client, st)

/-- Body of the `Announce` loop of `handle_server_message`: for one
announced `(client, name)` pair, record the remote client and flush any
deferred message for it. -/
def announceStep (selfId : ServerId) (srv_dst nexthop : ServerId)
    (acc : List Outgoing × List (ClientId × RemoteClient) × List (ClientId × Message))
    (entry : ClientId × String) :
    List Outgoing × List (ClientId × RemoteClient) × List (ClientId × Message) :=
  let (resp, remotes, stored) := acc
  let (client_dst, name) := entry
  let remotes' := alSet remotes client_dst ⟨name, srv_dst⟩
  match alGet stored client_dst with
  | some message =>
      (resp ++ [⟨nexthop, ⟨message.src, selfId, [(client_dst, srv_dst)], message.content⟩⟩],
        remotes', alRemove stored client_dst)
  | none => (resp, remotes', stored)

/-- `list_users`. -/
def list_users (st : Server) : List (ClientId × String) :=
  st.clients.map (fun p => (p.1, p.2.name))

/-! ### The router (`route_to`)

Step 1 of the source builds `graph : HashMap<ServerId, Vec<ServerId>>` by
pushing, for every window `[a, b]` of every stored route, `b` onto `a`'s
list and `a` onto `b`'s list, and, for every non-empty route, the route's
last element onto `self`'s list and `self` onto that element's list. We
model the adjacency list of a vertex `v` directly as the list of pushes
that target `v`, in push order. -/

/-- Pushes onto `v`'s adjacency list contributed by one stored route. -/
def routeAdj (selfId : ServerId) (route : List ServerId) (v : ServerId) :
    List ServerId :=
  ((route.zip route.tail).map
    (fun w => (if w.1 = v then [w.2] else []) ++ (if w.2 = v then [w.1] else []))).flatten
  ++ (match route.getLast? with
      | some lastServer =>
          (if selfId = v then [lastServer] else []) ++
          (if lastServer = v then [selfId] else [])
      | none => [])

/-- `graph.get(&v)` after step 1: all pushes onto `v`, route by route. -/
def neighbors (selfId : ServerId) (routes : List (List ServerId)) (v : ServerId) :
    List ServerId :=
  (routes.map (fun route => routeAdj selfId route v)).flatten

/-- Step 3 of the source: follow the predecessor chain recorded in
`visited`, pushing each node (fuel caps the walk; under the BFS invariant
the chain reaches the root before the fuel runs out). -/
def reconstruct (visited : List (ServerId × Option ServerId)) :
    Nat → ServerId → List ServerId
  | 0, v => [v]
  | fuel + 1, v =>
      match alGet visited v with
      | some (some u) => v :: reconstruct visited fuel u
      | _ => [v]

/-- Inner neighbor loop of step 2: `visited.entry(n).or_insert_with(||
{ queue.push_back(n); Some(current) })` for each neighbor `n` in order. -/
def expand (current : ServerId) (ns : List ServerId) (queue : List ServerId)
    (visited : List (ServerId × Option ServerId)) :
    List ServerId × List (ServerId × Option ServerId) :=
  match ns with
  | [] => (queue, visited)
  | n :: rest =>
      match alGet visited n with
      | some _ => expand current rest queue visited
      | none => expand current rest (queue ++ [n]) (visited ++ [(n, some current)])

/-- Step 2 of the source: BFS main loop (fuel-bounded `while let`). -/
def bfsAux (nbrs : ServerId → List ServerId) (destination : ServerId) :
    Nat → List ServerId → List (ServerId × Option ServerId) →
    Option (List ServerId)
  | 0, _, _ => none
  | _ + 1, [], _ => none
  | fuel + 1, current :: queueRest, visited =>
      if current = destination then
        some (reconstruct visited visited.length current).reverse
      else
        let qv := expand current (nbrs current) queueRest visited
        bfsAux nbrs destination fuel qv.1 qv.2

/-- Fuel bound for the BFS loop: each iteration pops one node and every
enqueue adds a fresh visited key drawn from `selfId :: routes.flatten`, so
`2 * |universe| + 1` iterations always suffice. -/
def bfsFuel (selfId : ServerId) (routes : List (List ServerId)) : Nat :=
  2 * (selfId :: routes.flatten).length + 1

/-- `route_to`: BFS from `selfId` over the undirected graph of the stored
routes (plus the implicit `self ↔ route.last` edges). -/
def route_to (selfId : ServerId) (routes : List (List ServerId))
    (destination : ServerId) : Option (List ServerId) :=
  bfsAux (neighbors selfId routes) destination (bfsFuel selfId routes)
    [selfId] [(selfId, none)]

/-- `Server::route_to`. -/
def Server.route_to (st : Server) (destination : ServerId) :
    Option (List ServerId) :=
  Engine.route_to st.id st.routes destination

/-- `handle_server_message`. -/
def handle_server_message (st : Server) (msg : ServerMessage) :
    ServerReply × Server :=
  match msg with
  | .Announce route clients =>
      match route with
      | [] => (ServerReply.EmptyRoute, st)
      | h :: t =>
          let st1 := { st with routes := st.routes ++ [h :: t] }
          let srv_dst := get_srv_dist (h :: t)
          let nexthop := get_nexthop (h :: t)
          let folded := clients.foldl (announceStep st.id srv_dst nexthop)
            ([], st1.remote_clients, st1.stored_messages)
          (ServerReply.Outgoing folded.1,
            { st1 with remote_clients := folded.2.1, stored_messages := folded.2.2 })
  | .Message fqm =>
      match fqm.dsts with
      | [] => (ServerReply.Error "No destination found for the message", st)
      | (client_dst, server_dst) :: _ =>
          let st1 :=
            match alGet st.clients client_dst with
            | some info =>
                let info' := { info with mailbox := info.mailbox ++ [(fqm.src, fqm.content)] }
                { st with clients := alSet st.clients client_dst info' }
            | none => st
          match st1.route_to server_dst with
          | none => (ServerReply.Error "Route for the client not found", st1)
          | some route =>
              (ServerReply.Outgoing [⟨get_nexthop route, fqm⟩], st1)

/-- One observable operation of the engine, as a step relation (spam-check
outcomes, the fresh client id, and message payloads are chosen by the
environment). -/
inductive Step (MAILBOX_SIZE : Nat) : Server → Server → Prop
  | register (st : Server) (src_ip : Nat) (name : String)
      (ipCheck userCheck : Option Bool) (freshId : ClientId) :
      Step MAILBOX_SIZE st (register_local_client st src_ip name ipCheck userCheck freshId).2
  | clientMsg (st : Server) (src : ClientId) (msg : ClientMessage) :
      Step MAILBOX_SIZE st (handle_client_message MAILBOX_SIZE st src msg).2
  | serverMsg (st : Server) (msg : ServerMessage) :
      Step MAILBOX_SIZE st (handle_server_message st msg).2
  | poll (st : Server) (client : ClientId) :
      Step MAILBOX_SIZE st (client_poll st client).2
  | seqMsg (st : Server) (sequence : Sequence Unit) :
      Step MAILBOX_SIZE st (handle_sequenced_message st sequence).2

/-- Reachability from the freshly constructed server. -/
def Reachable (MAILBOX_SIZE : Nat) (id : ServerId) (st : Server) : Prop :=
  Relation.ReflTransGen (Step MAILBOX_SIZE) (Server.new id) st

/-- Keys of an association list. -/
def keys {β : Type} (l : List (Nat × β)) : List Nat := l.map Prod.fst

/-- `p` is a path from `a` to `b` in the graph whose adjacency lists are
given by `nbrs` (consecutive path members are joined by a recorded push,
i.e. by an edge of the graph the source builds). -/
def IsPath (nbrs : ServerId → List ServerId) (a b : ServerId)
    (p : List ServerId) : Prop :=
  p.head? = some a ∧ p.getLast? = some b ∧ List.Chain' (fun u v => v ∈ nbrs u) p

/-- The predecessor chain of `v` recorded in `visited`, from `v` back to
the BFS root (the node whose recorded predecessor is `none`). -/
inductive Trace (visited : List (ServerId × Option ServerId)) :
    ServerId → List ServerId → Prop
  | root (v : ServerId) (h : alGet visited v = some none) : Trace visited v [v]
  | step (v u : ServerId) (p : List ServerId)
      (h : alGet visited v = some (some u)) (t : Trace visited u p) :
      Trace visited v (v :: p)

/-- BFS discovery depth of `v` (node count of its predecessor chain). -/
def depth (visited : List (ServerId × Option ServerId)) (v : ServerId)
    (n : Nat) : Prop :=
  ∃ p, Trace visited v p ∧ p.length = n

/-- Invariant I1 of the specification: every local mailbox is within the
capacity bound. -/
def MailboxInv (MAILBOX_SIZE : Nat) (st : Server) : Prop :=
  ∀ p ∈ st.clients, p.2.mailbox.length ≤ MAILBOX_SIZE

/-- Invariant of the BFS loop of `route_to`, before each `while` test.
`U` is a finite universe containing every node the search can touch. -/
structure BfsInv (nbrs : ServerId → List ServerId) (root_node : ServerId)
    (U : List ServerId) (queue : List ServerId)
    (visited : List (ServerId × Option ServerId)) : Prop where
  nodup_keys : (keys visited).Nodup
  nodup_queue : queue.Nodup
  queue_sub : ∀ v ∈ queue, v ∈ keys visited
  closure : ∀ v ∈ keys visited, v ∉ queue → ∀ n ∈ nbrs v, n ∈ keys visited
  keys_sub : ∀ v ∈ keys visited, v ∈ U
  root : alGet visited root_node = some none
  sound_min : ∀ v ∈ keys visited, ∃ p, Trace visited v p ∧
    (∀ w ∈ p, w ∈ keys visited) ∧ p.Nodup ∧ IsPath nbrs root_node v p.reverse ∧
    ∀ r, IsPath nbrs root_node v r → p.length ≤ r.length
  queue_depths : ∃ ds, List.Forall₂ (depth visited) queue ds ∧
    ds.Sorted (· ≤ ·) ∧ ∀ a ∈ ds.head?, ∀ b ∈ ds, b ≤ a + 1

/-- Invariant of the inner neighbor loop (`expand`): the head `current`
(of recorded depth `dc`) has been popped off the queue and is being
expanded. -/
structure ExpandInv (nbrs : ServerId → List ServerId) (root_node : ServerId)
    (U : List ServerId) (current : ServerId) (dc : Nat)
    (queue : List ServerId) (visited : List (ServerId × Option ServerId)) : Prop where
  nodup_keys : (keys visited).Nodup
  nodup_queue : queue.Nodup
  current_not_queue : current ∉ queue
  queue_sub : ∀ v ∈ queue, v ∈ keys visited
  closure : ∀ v ∈ keys visited, v ≠ current → v ∉ queue → ∀ n ∈ nbrs v, n ∈ keys visited
  keys_sub : ∀ v ∈ keys visited, v ∈ U
  root : alGet visited root_node = some none
  sound_min : ∀ v ∈ keys visited, ∃ p, Trace visited v p ∧
    (∀ w ∈ p, w ∈ keys visited) ∧ p.Nodup ∧ IsPath nbrs root_node v p.reverse ∧
    ∀ r, IsPath nbrs root_node v r → p.length ≤ r.length
  current_mem : current ∈ keys visited
  current_depth : depth visited current dc
  queue_depths : ∃ ds, List.Forall₂ (depth visited) queue ds ∧
    ds.Sorted (· ≤ ·) ∧ ∀ b ∈ ds, dc ≤ b ∧ b ≤ dc + 1

end Engine

/-! ## Association-list lemmas -/

namespace Engine

theorem alGet_eq_none {β : Type} (l : List (Nat × β)) (k : Nat)
    (h : k ∉ keys l) : alGet l k = none := by
  induction l with
  | nil => rfl
  | cons p rest ih =>
    simp only [keys, List.map_cons, List.mem_cons] at h
    push_neg at h
    simp only [alGet]
    rw [if_neg (Ne.symm h.1)]
    exact ih h.2

theorem mem_keys_of_alGet {β : Type} {l : List (Nat × β)} {k : Nat}
    {v : β} (h : alGet l k = some v) : k ∈ keys l := by
  induction l with
  | nil => simp [alGet] at h
  | cons p rest ih =>
    by_cases hp : p.1 = k
    · simp [keys, hp]
    · simp only [alGet, if_neg hp] at h
      simp only [keys, List.map_cons, List.mem_cons]
      exact Or.inr (ih h)

theorem alGet_alSet_self {β : Type} (l : List (Nat × β)) (k : Nat) (v : β) :
    alGet (alSet l k v) k = some v := by
  induction l with
  | nil => simp [alSet, alGet]
  | cons p rest ih =>
    obtain ⟨a, b⟩ := p
    by_cases h : a = k
    · simp [alSet, h, alGet]
    · simp [alSet, h, alGet, ih]

theorem alGet_alSet_ne {β : Type} (l : List (Nat × β)) (k key : Nat) (v : β)
    (h : k ≠ key) : alGet (alSet l k v) key = alGet l key := by
  induction l with
  | nil => simp [alSet, alGet, h]
  | cons p rest ih =>
    obtain ⟨a, b⟩ := p
    by_cases hp : a = k
    · subst hp
      simp [alSet, alGet, h]
    · simp [alSet, hp, alGet, ih]

theorem alGet_alRemove_ne {β : Type} (l : List (Nat × β)) (k key : Nat)
    (h : k ≠ key) : alGet (alRemove l k) key = alGet l key := by
  induction l with
  | nil => simp [alRemove]
  | cons p rest ih =>
    obtain ⟨a, b⟩ := p
    by_cases hp : a = k
    · subst hp
      simp [alRemove, alGet, h]
    · simp [alRemove, hp, alGet, ih]

theorem keys_alRemove_sublist {β : Type} (l : List (Nat × β)) (k : Nat) :
    (keys (alRemove l k)).Sublist (keys l) := by
  induction l with
  | nil => simp [alRemove]
  | cons p rest ih =>
    obtain ⟨a, b⟩ := p
    by_cases hp : a = k
    · simp only [alRemove, if_pos hp, keys, List.map_cons]
      exact List.sublist_cons_self _ _
    · simpa [alRemove, hp, keys] using ih.cons₂ a

theorem alGet_alRemove_self {β : Type} (l : List (Nat × β)) (k : Nat)
    (h : (keys l).Nodup) : alGet (alRemove l k) k = none := by
  induction l with
  | nil => rfl
  | cons p rest ih =>
    obtain ⟨a, b⟩ := p
    simp only [keys, List.map_cons, List.nodup_cons] at h
    by_cases hp : a = k
    · subst hp
      simp only [alRemove, if_pos rfl]
      exact alGet_eq_none rest a h.1
    · simp only [alRemove, if_neg hp, alGet, if_neg hp]
      exact ih h.2

theorem mem_alSet {β : Type} (l : List (Nat × β)) (k : Nat) (v : β) :
    ∀ q ∈ alSet l k v, q.2 = v ∨ q ∈ l := by
  induction l with
  | nil =>
    intro q hq
    simp only [alSet, List.mem_singleton] at hq
    exact Or.inl (by simp [hq])
  | cons p rest ih =>
    obtain ⟨a, b⟩ := p
    intro q hq
    by_cases hp : a = k
    · simp only [alSet, if_pos hp, List.mem_cons] at hq
      rcases hq with rfl | hmem
      · exact Or.inl rfl
      · exact Or.inr (List.mem_cons_of_mem _ hmem)
    · simp only [alSet, if_neg hp, List.mem_cons] at hq
      rcases hq with rfl | hmem
      · exact Or.inr (List.mem_cons_self _ _)
      · rcases ih q hmem with hv | hm
        · exact Or.inl hv
        · exact Or.inr (List.mem_cons_of_mem _ hm)

end Engine

/-! ## Codec claims -/

/-- Claim C1 (refuted by the code): `decode(encode(v)) = v` fails for
`client_replies`. The encoder writes no `vu128` count prefix (it emits only
the element encodings), while the decoder first reads a count: encoding
`[Delivered]` yields the single byte `0`, which the decoder reads as the
count `0`, returning the empty reply list with the input fully consumed. -/
theorem c1_client_replies_roundtrip_fails :
    Proto.encode.client_replies [Proto.ClientReply.Delivered] = [0] ∧
    Proto.decode.client_replies (Proto.encode.client_replies [Proto.ClientReply.Delivered]) =
      Proto.DecResult.ok [] [] ∧
    Proto.DecResult.ok ([] : List Proto.ClientReply) [] ≠
      Proto.DecResult.ok [Proto.ClientReply.Delivered] [] := by
  refine ⟨rfl, rfl, ?_⟩
  decide

/-- Claim C7 (refuted by the code): decoding a `ClientId` or `ServerId`
from a stream with fewer than one byte available panics — `decode::uuid`
reads the marker byte with `read_u8().unwrap()`, which panics on EOF
instead of returning a typed error. -/
theorem c7_uuid_decode_panics_on_empty :
    Proto.decode.clientid [] = Proto.DecResult.crash ∧
    Proto.decode.serverid [] = Proto.DecResult.crash ∧
    Proto.decode.uuid [] = Proto.DecResult.crash :=
  ⟨rfl, rfl, rfl⟩

/-- Claim C8: the encoding of a (well-formed, 16-byte) UUID is exactly 17
bytes — a literal first byte 16 followed by the 16 payload bytes — and
decoding any stream whose leading byte differs from 16 fails. -/
theorem c8_uuid_encoding (u : Proto.Uuid) (hu : u.WF) (b : Nat)
    (rest : List Nat) (hb : b ≠ 16) :
    Proto.encode.uuid u = 16 :: u.bytes ∧
    (Proto.encode.uuid u).length = 17 ∧
    Proto.decode.uuid (b :: rest) =
      Proto.DecResult.err "Invalid prefix byte for u8 encoding" := by
  refine ⟨rfl, ?_, ?_⟩
  · simp [Proto.encode.uuid, hu.1]
  · simp [Proto.decode.uuid, Proto.read_u8, hb]

/-- Witness for C8 at the all-zero UUID and leading byte 0. -/
theorem c8_uuid_encoding_witness :
    Proto.encode.uuid ⟨List.replicate 16 0⟩ = 16 :: List.replicate 16 0 ∧
    (Proto.encode.uuid ⟨List.replicate 16 0⟩).length = 17 ∧
    Proto.decode.uuid [0] =
      Proto.DecResult.err "Invalid prefix byte for u8 encoding" :=
  c8_uuid_encoding ⟨List.replicate 16 0⟩ (by constructor <;> simp) 0 [] (by decide)

/-! ## Engine claims: single-operation properties -/

namespace Engine

/-- Claim C3: a client-originated delivery to a local client whose mailbox
already holds exactly `MAILBOX_SIZE` entries returns
`Error(BoxFull(dest))` and leaves the whole server state unchanged. -/
theorem c3_boxfull_unchanged (MAILBOX_SIZE : Nat) (st : Server)
    (src dest : ClientId) (content : String) (client : Client)
    (hget : alGet st.clients dest = some client)
    (hfull : client.mailbox.length = MAILBOX_SIZE) :
    client_message MAILBOX_SIZE st src dest content =
      (ClientReply.Error (ClientError.BoxFull dest), st) := by
  simp [client_message, hget, hfull]

/-- Witness for C3: capacity 1, a one-element mailbox. -/
theorem c3_boxfull_unchanged_witness :
    client_message 1
      ⟨0, [(5, ⟨0, "n", 0, [(4, "m")]⟩)], [], [], []⟩ 4 5 "x" =
      (ClientReply.Error (ClientError.BoxFull 5),
        ⟨0, [(5, ⟨0, "n", 0, [(4, "m")]⟩)], [], [], []⟩) :=
  c3_boxfull_unchanged 1 ⟨0, [(5, ⟨0, "n", 0, [(4, "m")]⟩)], [], [], []⟩
    4 5 "x" ⟨0, "n", 0, [(4, "m")]⟩ (by simp [alGet]) (by simp)

/-- Claim C4: `handle_sequenced_message` accepts (updates the last-seen
sequence id and yields the content) exactly when the source is registered
and the sequence id strictly exceeds the stored one; a registered source
with a stale id gets `InternalError` and an unregistered source gets
`UnknownClient`, both without changing the state. -/
theorem c4_sequenced_message {A : Type} (st : Server) (sequence : Sequence A) :
    (∀ client, alGet st.clients sequence.src = some client →
      (client.seqid < sequence.seqid →
        handle_sequenced_message st sequence =
          (Except.ok sequence.content,
            { st with clients := alSet st.clients sequence.src { client with seqid := sequence.seqid } })) ∧
      (sequence.seqid ≤ client.seqid →
        handle_sequenced_message st sequence =
          (Except.error ClientError.InternalError, st))) ∧
    (alGet st.clients sequence.src = none →
      handle_sequenced_message st sequence =
        (Except.error ClientError.UnknownClient, st)) := by
  constructor
  · intro client hget
    constructor
    · intro hlt
      simp [handle_sequenced_message, hget, hlt]
    · intro hle
      simp [handle_sequenced_message, hget, Nat.not_lt.mpr hle]
  · intro hnone
    simp [handle_sequenced_message, hnone]

/-- Witness for C4 at a concrete state: client 5 with stored seqid 3;
seqid 4 is accepted, seqid 3 is rejected, and an unknown source errors. -/
theorem c4_sequenced_message_witness :
    handle_sequenced_message ⟨0, [(5, ⟨0, "n", 3, []⟩)], [], [], []⟩
      (⟨4, 5, ()⟩ : Sequence Unit) =
      (Except.ok (),
        ⟨0, [(5, ⟨0, "n", 4, []⟩)], [], [], []⟩) ∧
    handle_sequenced_message ⟨0, [(5, ⟨0, "n", 3, []⟩)], [], [], []⟩
      (⟨3, 5, ()⟩ : Sequence Unit) =
      (Except.error ClientError.InternalError,
        ⟨0, [(5, ⟨0, "n", 3, []⟩)], [], [], []⟩) ∧
    handle_sequenced_message ⟨0, [(5, ⟨0, "n", 3, []⟩)], [], [], []⟩
      (⟨4, 6, ()⟩ : Sequence Unit) =
      (Except.error ClientError.UnknownClient,
        ⟨0, [(5, ⟨0, "n", 3, []⟩)], [], [], []⟩) := by
  refine ⟨?_, ?_, ?_⟩
  · exact ((c4_sequenced_message ⟨0, [(5, ⟨0, "n", 3, []⟩)], [], [], []⟩
      (⟨4, 5, ()⟩ : Sequence Unit)).1 ⟨0, "n", 3, []⟩ (by simp [alGet])).1 (by decide)
  · exact ((c4_sequenced_message ⟨0, [(5, ⟨0, "n", 3, []⟩)], [], [], []⟩
      (⟨3, 5, ()⟩ : Sequence Unit)).1 ⟨0, "n", 3, []⟩ (by simp [alGet])).2 (by decide)
  · exact (c4_sequenced_message ⟨0, [(5, ⟨0, "n", 3, []⟩)], [], [], []⟩
      (⟨4, 6, ()⟩ : Sequence Unit)).2 (by simp [alGet])

/-- Claim C9: a freshly registered local client is stored with last-seen
sequence id 0; a sequenced message with seqid 0 from it is rejected with
`InternalError` even though it is the first message; and any accepted
sequenced message anywhere has seqid at least 1. -/
theorem c9_fresh_client_seqid_zero (st : Server) (src_ip : Nat)
    (name : String) (freshId : ClientId) (st' : Server) (r : Option ClientId)
    (hreg : register_local_client st src_ip name (some false) (some false) freshId
      = (r, st')) :
    alGet st'.clients freshId = some ⟨src_ip, name, 0, []⟩ ∧
    handle_sequenced_message st' (⟨0, freshId, ()⟩ : Sequence Unit) =
      (Except.error ClientError.InternalError, st') ∧
    (∀ (A : Type) (st₀ st₁ : Server) (seq : Sequence A) (res : A),
      handle_sequenced_message st₀ seq = (Except.ok res, st₁) → 1 ≤ seq.seqid) := by
  have hst' : st' = { st with clients := alSet st.clients freshId ⟨src_ip, name, 0, []⟩ } := by
    simp [register_local_client] at hreg
    exact hreg.2.symm
  have hget : alGet st'.clients freshId = some ⟨src_ip, name, 0, []⟩ := by
    rw [hst']
    exact alGet_alSet_self _ _ _
  refine ⟨hget, ?_, ?_⟩
  · simp [handle_sequenced_message, hget]
  · intro A st₀ st₁ seq res hacc
    by_contra hlt
    have hz : seq.seqid = 0 := by omega
    unfold handle_sequenced_message at hacc
    cases hcl : alGet st₀.clients seq.src with
    | none => simp [hcl] at hacc
    | some client =>
      simp only [hcl] at hacc
      by_cases hc : client.seqid < seq.seqid
      · omega
      · simp [hc] at hacc

/-- Witness for C9: registering client 5 on the empty server. -/
theorem c9_fresh_client_seqid_zero_witness :
    alGet ((Server.new 0).clients.cons (5, ⟨7, "n", 0, []⟩)) 5 =
        some ⟨7, "n", 0, []⟩ ∧
    handle_sequenced_message
        ⟨0, [(5, ⟨7, "n", 0, []⟩)], [], [], []⟩ (⟨0, 5, ()⟩ : Sequence Unit) =
      (Except.error ClientError.InternalError,
        ⟨0, [(5, ⟨7, "n", 0, []⟩)], [], [], []⟩) ∧
    (∀ (A : Type) (st₀ st₁ : Server) (seq : Sequence A) (res : A),
      handle_sequenced_message st₀ seq = (Except.ok res, st₁) → 1 ≤ seq.seqid) := by
  have h := c9_fresh_client_seqid_zero (Server.new 0) 7 "n" 5
    ⟨0, [(5, ⟨7, "n", 0, []⟩)], [], [], []⟩ (some 5) (by rfl)
  exact ⟨h.1, h.2.1, h.2.2⟩

end Engine

namespace Engine

/-- Claim C10: when a server-to-server `Message` names as first destination
a locally registered client paired with a server that the router cannot
reach, the handler returns the route-not-found error — but the message has
already been pushed onto the local client's mailbox, so the state is
changed on error. -/
theorem c10_route_error_still_delivers (st : Server)
    (fqm : FullyQualifiedMessage) (client_dst : ClientId)
    (server_dst : ServerId) (dstRest : List (ClientId × ServerId))
    (info : Client)
    (hdsts : fqm.dsts = (client_dst, server_dst) :: dstRest)
    (hlocal : alGet st.clients client_dst = some info)
    (hroute : route_to st.id st.routes server_dst = none) :
    handle_server_message st (ServerMessage.Message fqm) =
      (ServerReply.Error "Route for the client not found",
        { st with clients := alSet st.clients client_dst { info with mailbox := info.mailbox ++ [(fqm.src, fqm.content)] } }) ∧
    alGet (handle_server_message st (ServerMessage.Message fqm)).2.clients client_dst =
      some { info with mailbox := info.mailbox ++ [(fqm.src, fqm.content)] } := by
  have h1 : handle_server_message st (ServerMessage.Message fqm) =
      (ServerReply.Error "Route for the client not found",
        { st with clients := alSet st.clients client_dst { info with mailbox := info.mailbox ++ [(fqm.src, fqm.content)] } }) := by
    simp only [handle_server_message, hdsts, hlocal, Server.route_to]
    simp [hroute]
  refine ⟨h1, ?_⟩
  rw [h1]
  exact alGet_alSet_self _ _ _

/-- Witness for C10: one local client, no routes at all, destination
server 9 (unreachable). -/
theorem c10_route_error_still_delivers_witness :
    handle_server_message ⟨0, [(5, ⟨0, "n", 0, []⟩)], [], [], []⟩
        (ServerMessage.Message ⟨7, 9, [(5, 9)], "y"⟩) =
      (ServerReply.Error "Route for the client not found",
        ⟨0, [(5, ⟨0, "n", 0, [(7, "y")]⟩)], [], [], []⟩) ∧
    alGet (handle_server_message ⟨0, [(5, ⟨0, "n", 0, []⟩)], [], [], []⟩
        (ServerMessage.Message ⟨7, 9, [(5, 9)], "y"⟩)).2.clients 5 =
      some ⟨0, "n", 0, [(7, "y")]⟩ :=
  c10_route_error_still_delivers ⟨0, [(5, ⟨0, "n", 0, []⟩)], [], [], []⟩
    ⟨7, 9, [(5, 9)], "y"⟩ 5 9 [] ⟨0, "n", 0, []⟩ rfl (by simp [alGet]) (by rfl)

/-! ### The `Announce` fold -/

/-- Entries with keys other than `C` neither disturb `C`'s deferred
message nor contribute an `Outgoing` whose destination client list is
`[C]`. -/
theorem announce_fold_no_c (selfId srv_dst nexthop : ServerId) (C : ClientId)
    (es : List (ClientId × String)) (hC : ∀ e ∈ es, e.1 ≠ C) :
    ∀ (resp : List Outgoing) (rem : List (ClientId × RemoteClient))
      (stored : List (ClientId × Message)),
    alGet (es.foldl (announceStep selfId srv_dst nexthop) (resp, rem, stored)).2.2 C =
      alGet stored C ∧
    ((es.foldl (announceStep selfId srv_dst nexthop) (resp, rem, stored)).1.filter
        (fun o => o.message.dsts.map Prod.fst == [C])) =
      resp.filter (fun o => o.message.dsts.map Prod.fst == [C]) := by
  induction es with
  | nil => intro resp rem stored; exact ⟨rfl, rfl⟩
  | cons e rest ih =>
    intro resp rem stored
    have he : e.1 ≠ C := hC e (List.mem_cons_self _ _)
    have hrest : ∀ e ∈ rest, e.1 ≠ C := fun x hx => hC x (List.mem_cons_of_mem _ hx)
    simp only [List.foldl_cons]
    cases hstored : alGet stored e.1 with
    | none =>
      have hstep : announceStep selfId srv_dst nexthop (resp, rem, stored) e =
          (resp, alSet rem e.1 ⟨e.2, srv_dst⟩, stored) := by
        simp [announceStep, hstored]
      rw [hstep]
      exact (ih hrest resp _ stored)
    | some message =>
      have hstep : announceStep selfId srv_dst nexthop (resp, rem, stored) e =
          (resp ++ [⟨nexthop, ⟨message.src, selfId, [(e.1, srv_dst)], message.content⟩⟩],
            alSet rem e.1 ⟨e.2, srv_dst⟩, alRemove stored e.1) := by
        simp [announceStep, hstored]
      rw [hstep]
      obtain ⟨ha, hb⟩ := ih hrest
        (resp ++ [⟨nexthop, ⟨message.src, selfId, [(e.1, srv_dst)], message.content⟩⟩])
        (alSet rem e.1 ⟨e.2, srv_dst⟩) (alRemove stored e.1)
      refine ⟨?_, ?_⟩
      · rw [ha]
        exact alGet_alRemove_ne stored e.1 C he
      · rw [hb, List.filter_append]
        have hfalse : (e.1 == C) = false := by simpa using he
        simp [List.filter, hfalse]

/-- The stored-messages component of the fold only ever shrinks (its key
list is a sublist of the original), so nodup keys are preserved. -/
theorem announce_fold_stored_sublist (selfId srv_dst nexthop : ServerId)
    (es : List (ClientId × String)) :
    ∀ (resp : List Outgoing) (rem : List (ClientId × RemoteClient))
      (stored : List (ClientId × Message)),
    (keys (es.foldl (announceStep selfId srv_dst nexthop) (resp, rem, stored)).2.2).Sublist
      (keys stored) := by
  induction es with
  | nil => intro resp rem stored; exact List.Sublist.refl _
  | cons e rest ih =>
    intro resp rem stored
    simp only [List.foldl_cons]
    cases hstored : alGet stored e.1 with
    | none =>
      have hstep : announceStep selfId srv_dst nexthop (resp, rem, stored) e =
          (resp, alSet rem e.1 ⟨e.2, srv_dst⟩, stored) := by
        simp [announceStep, hstored]
      rw [hstep]
      exact ih resp _ stored
    | some message =>
      have hstep : announceStep selfId srv_dst nexthop (resp, rem, stored) e =
          (resp ++ [⟨nexthop, ⟨message.src, selfId, [(e.1, srv_dst)], message.content⟩⟩],
            alSet rem e.1 ⟨e.2, srv_dst⟩, alRemove stored e.1) := by
        simp [announceStep, hstored]
      rw [hstep]
      exact (ih _ _ _).trans (keys_alRemove_sublist stored e.1)

end Engine

namespace Engine

/-- Full effect of the `Announce` client fold on a client `C` that has a
deferred message: exactly one flushed `Outgoing` for `C`, and `C`'s
deferred entry is removed. -/
theorem announce_fold_spec (selfId srv_dst nexthop : ServerId) (C : ClientId)
    (cname : String) (s : ClientId) (t : String) (es : List (ClientId × String))
    (hmem : (C, cname) ∈ es) (hnodup : (es.map Prod.fst).Nodup)
    (rem : List (ClientId × RemoteClient)) (stored : List (ClientId × Message))
    (hnodupStored : (keys stored).Nodup) (hdef : alGet stored C = some ⟨s, t⟩) :
    (es.foldl (announceStep selfId srv_dst nexthop) ([], rem, stored)).1.filter
        (fun o => o.message.dsts.map Prod.fst == [C]) =
      [⟨nexthop, ⟨s, selfId, [(C, srv_dst)], t⟩⟩] ∧
    alGet (es.foldl (announceStep selfId srv_dst nexthop) ([], rem, stored)).2.2 C = none := by
  obtain ⟨pre, post, hsplit⟩ := List.append_of_mem hmem
  subst hsplit
  have hmapsplit : ((pre ++ (C, cname) :: post).map Prod.fst) =
      pre.map Prod.fst ++ C :: post.map Prod.fst := by simp
  rw [hmapsplit] at hnodup
  obtain ⟨-, hnodupR, hdisj⟩ := List.nodup_append.mp hnodup
  have hpre : ∀ e ∈ pre, e.1 ≠ C := by
    intro e he heq
    exact hdisj (List.mem_map_of_mem Prod.fst he) (heq ▸ List.mem_cons_self C _)
  have hpost : ∀ e ∈ post, e.1 ≠ C := by
    intro e he heq
    exact (List.nodup_cons.mp hnodupR).1 (heq ▸ List.mem_map_of_mem Prod.fst he)
  -- phase 1: the entries before (C, cname)
  obtain ⟨hpre_stored, hpre_filter⟩ :=
    announce_fold_no_c selfId srv_dst nexthop C pre hpre [] rem stored
  set a1 := pre.foldl (announceStep selfId srv_dst nexthop) ([], rem, stored) with ha1
  have hC1 : alGet a1.2.2 C = some ⟨s, t⟩ := hpre_stored.trans hdef
  have hnodup1 : (keys a1.2.2).Nodup :=
    (announce_fold_stored_sublist selfId srv_dst nexthop pre [] rem stored).nodup
      hnodupStored
  -- phase 2: the (C, cname) entry itself
  have heta : a1 = (a1.1, a1.2.1, a1.2.2) := rfl
  have hstepC : announceStep selfId srv_dst nexthop a1 (C, cname) =
      (a1.1 ++ [⟨nexthop, ⟨s, selfId, [(C, srv_dst)], t⟩⟩],
        alSet a1.2.1 C ⟨cname, srv_dst⟩, alRemove a1.2.2 C) := by
    rw [heta]
    simp [announceStep, hC1]
  -- phase 3: the entries after (C, cname)
  obtain ⟨hpost_stored, hpost_filter⟩ :=
    announce_fold_no_c selfId srv_dst nexthop C post hpost
      (a1.1 ++ [⟨nexthop, ⟨s, selfId, [(C, srv_dst)], t⟩⟩])
      (alSet a1.2.1 C ⟨cname, srv_dst⟩) (alRemove a1.2.2 C)
  rw [List.foldl_append, List.foldl_cons, ← ha1, hstepC]
  constructor
  · rw [hpost_filter, List.filter_append, hpre_filter]
    simp [List.filter]
  · rw [hpost_stored]
    exact alGet_alRemove_self a1.2.2 C hnodup1

/-- Claim C5: announcing a non-empty route `[H, …]` whose client map
contains `C`, when `deferred[C] = (s, t)`, yields exactly one `Outgoing`
for `C`: its next hop is the route's last element and its message is
`FQM { src := s, srcsrv := self, dsts := [(C, H)], content := t }`; and
`C`'s deferred entry is removed. -/
theorem c5_announce_flushes_deferred (st : Server) (H : ServerId)
    (tRoute : List ServerId) (clientsList : List (ClientId × String))
    (C : ClientId) (cname : String) (s : ClientId) (t : String)
    (hmem : (C, cname) ∈ clientsList)
    (hnodup : (clientsList.map Prod.fst).Nodup)
    (hnodupStored : (keys st.stored_messages).Nodup)
    (hdef : alGet st.stored_messages C = some ⟨s, t⟩) :
    ∃ outs,
      (handle_server_message st (ServerMessage.Announce (H :: tRoute) clientsList)).1 =
        ServerReply.Outgoing outs ∧
      outs.filter (fun o => o.message.dsts.map Prod.fst == [C]) =
        [⟨get_nexthop (H :: tRoute), ⟨s, st.id, [(C, H)], t⟩⟩] ∧
      get_nexthop (H :: tRoute) = (H :: tRoute).getLast (List.cons_ne_nil H tRoute) ∧
      alGet (handle_server_message st
          (ServerMessage.Announce (H :: tRoute) clientsList)).2.stored_messages C = none := by
  have hsrv : get_srv_dist (H :: tRoute) = H := rfl
  obtain ⟨hfilter, hstored⟩ := announce_fold_spec st.id (get_srv_dist (H :: tRoute))
    (get_nexthop (H :: tRoute)) C cname s t clientsList hmem hnodup
    st.remote_clients st.stored_messages hnodupStored hdef
  refine ⟨_, rfl, ?_, ?_, ?_⟩
  · simp only [handle_server_message]
    rw [hsrv] at hfilter
    exact hfilter
  · simp [get_nexthop, List.getLastD_eq_getLast?, List.getLast?_eq_getLast]
  · simp only [handle_server_message]
    exact hstored

end Engine

namespace Engine

/-- Witness for C5: deferred message `(3, "m")` for client 8, announce of
route `[9]` listing client 8. -/
theorem c5_announce_flushes_deferred_witness :
    ∃ outs,
      (handle_server_message ⟨0, [], [], [], [(8, ⟨3, "m"⟩)]⟩
          (ServerMessage.Announce [9] [(8, "z")])).1 = ServerReply.Outgoing outs ∧
      outs.filter (fun o => o.message.dsts.map Prod.fst == [8]) =
        [⟨get_nexthop [9], ⟨3, 0, [(8, 9)], "m"⟩⟩] ∧
      get_nexthop [9] = ([9] : List ServerId).getLast (List.cons_ne_nil 9 []) ∧
      alGet (handle_server_message ⟨0, [], [], [], [(8, ⟨3, "m"⟩)]⟩
          (ServerMessage.Announce [9] [(8, "z")])).2.stored_messages 8 = none :=
  c5_announce_flushes_deferred ⟨0, [], [], [], [(8, ⟨3, "m"⟩)]⟩ 9 [] [(8, "z")]
    8 "z" 3 "m" (by simp) (by simp) (by simp [keys]) (by simp [alGet])

/-! ### Mailbox-capacity preservation (claim C2) -/

theorem mem_of_alGet {β : Type} {l : List (Nat × β)} {k : Nat} {v : β}
    (h : alGet l k = some v) : (k, v) ∈ l := by
  induction l with
  | nil => simp [alGet] at h
  | cons p rest ih =>
    by_cases hp : p.1 = k
    · simp only [alGet, if_pos hp] at h
      have hv : p.2 = v := Option.some.inj h
      have hpkv : p = (k, v) := by rw [← hp, ← hv]
      exact List.mem_cons.mpr (Or.inl hpkv.symm)
    · simp only [alGet, if_neg hp] at h
      exact List.mem_cons_of_mem _ (ih h)

theorem mailboxInv_client_message (MAILBOX_SIZE : Nat) (st : Server)
    (src dest : ClientId) (content : String)
    (h : MailboxInv MAILBOX_SIZE st) :
    MailboxInv MAILBOX_SIZE (client_message MAILBOX_SIZE st src dest content).2 := by
  unfold client_message
  cases hget : alGet st.clients dest with
  | some client =>
    dsimp only
    by_cases hfull : client.mailbox.length = MAILBOX_SIZE
    · simpa [hfull] using h
    · rw [if_neg hfull]
      intro p hp
      rcases mem_alSet _ _ _ p hp with hv | hmem
      · have hle : client.mailbox.length ≤ MAILBOX_SIZE :=
          h (dest, client) (mem_of_alGet hget)
        have hlt : client.mailbox.length < MAILBOX_SIZE :=
          lt_of_le_of_ne hle hfull
        rw [hv]
        simpa using hlt
      · exact h p hmem
  | none =>
    dsimp only
    cases hrem : alGet st.remote_clients dest with
    | some remoteInfo =>
      dsimp only
      split
      · exact h
      · exact h
    | none =>
      dsimp only
      intro p hp
      exact h p hp

theorem mailboxInv_handle_client_message (MAILBOX_SIZE : Nat) (st : Server)
    (src : ClientId) (msg : ClientMessage) (h : MailboxInv MAILBOX_SIZE st) :
    MailboxInv MAILBOX_SIZE (handle_client_message MAILBOX_SIZE st src msg).2 := by
  cases msg with
  | Text dest content =>
    simpa [handle_client_message] using
      mailboxInv_client_message MAILBOX_SIZE st src dest content h
  | MText dests content =>
    simp only [handle_client_message]
    suffices hgen : ∀ (ds : List ClientId) (acc : List ClientReply × Server),
        MailboxInv MAILBOX_SIZE acc.2 →
        MailboxInv MAILBOX_SIZE
          (ds.foldl (fun acc dst =>
            let r := client_message MAILBOX_SIZE acc.2 src dst content
            (acc.1 ++ [r.1], r.2)) acc).2 by
      exact hgen dests ([], st) h
    intro ds
    induction ds with
    | nil => intro acc hacc; exact hacc
    | cons d rest ih =>
      intro acc hacc
      exact ih _ (mailboxInv_client_message MAILBOX_SIZE acc.2 src d content hacc)

/-- Claim C2, amended: registration, client-originated delivery, poll and
sequenced-message handling preserve the mailbox bound `I1`; the claim's
remaining operation — server-message handling — does not (see the
counterexample), because its local delivery pushes without a capacity
check. -/
theorem c2_amended_mailbox_bound (MAILBOX_SIZE : Nat) (st : Server)
    (hinv : MailboxInv MAILBOX_SIZE st) :
    (∀ (src_ip : Nat) (name : String) (ic uc : Option Bool) (freshId : ClientId),
      MailboxInv MAILBOX_SIZE (register_local_client st src_ip name ic uc freshId).2) ∧
    (∀ (src : ClientId) (msg : ClientMessage),
      MailboxInv MAILBOX_SIZE (handle_client_message MAILBOX_SIZE st src msg).2) ∧
    (∀ c : ClientId, MailboxInv MAILBOX_SIZE (client_poll st c).2) ∧
    (∀ sequence : Sequence Unit,
      MailboxInv MAILBOX_SIZE (handle_sequenced_message st sequence).2) := by
  refine ⟨?_, ?_, ?_, ?_⟩
  · intro src_ip name ic uc freshId
    unfold register_local_client
    cases ic with
    | none => exact hinv
    | some ipResult =>
      cases uc with
      | none => exact hinv
      | some userResult =>
        dsimp only
        split
        · intro p hp
          rcases mem_alSet _ _ _ p hp with hv | hmem
          · rw [hv]; simp
          · exact hinv p hmem
        · exact hinv
  · exact fun src msg => mailboxInv_handle_client_message MAILBOX_SIZE st src msg hinv
  · intro c
    unfold client_poll
    cases hget : alGet st.clients c with
    | some clt =>
      dsimp only
      cases hmb : clt.mailbox with
      | nil => exact hinv
      | cons front rest =>
        obtain ⟨fsrc, fcontent⟩ := front
        dsimp only
        intro p hp
        rcases mem_alSet _ _ _ p hp with hv | hmem
        · have hle : clt.mailbox.length ≤ MAILBOX_SIZE := hinv (c, clt) (mem_of_alGet hget)
          rw [hmb] at hle
          rw [hv]
          simp only [List.length_cons] at hle ⊢
          omega
        · exact hinv p hmem
    | none => exact hinv
  · intro sequence
    unfold handle_sequenced_message
    cases hget : alGet st.clients sequence.src with
    | some client =>
      dsimp only
      split
      · intro p hp
        rcases mem_alSet _ _ _ p hp with hv | hmem
        · have hle : client.mailbox.length ≤ MAILBOX_SIZE :=
            hinv (sequence.src, client) (mem_of_alGet hget)
          rw [hv]
          exact hle
        · exact hinv p hmem
      · exact hinv
    | none => exact hinv

/-- Witness for the amended C2 at capacity 0 and the fresh server. -/
theorem c2_amended_mailbox_bound_witness :
    (∀ (src_ip : Nat) (name : String) (ic uc : Option Bool) (freshId : ClientId),
      MailboxInv 0 (register_local_client (Server.new 3) src_ip name ic uc freshId).2) ∧
    (∀ (src : ClientId) (msg : ClientMessage),
      MailboxInv 0 (handle_client_message 0 (Server.new 3) src msg).2) ∧
    (∀ c : ClientId, MailboxInv 0 (client_poll (Server.new 3) c).2) ∧
    (∀ sequence : Sequence Unit,
      MailboxInv 0 (handle_sequenced_message (Server.new 3) sequence).2) :=
  c2_amended_mailbox_bound 0 (Server.new 3) (by intro p hp; simp [Server.new] at hp)

end Engine

namespace Engine

/-- Claim C2 as stated is false: with `MAILBOX_SIZE = 1`, register client
5, deliver one client message (mailbox full), then handle a server-to-server
`Message` for client 5 — the push happens with no capacity check, leaving
a reachable state whose mailbox holds 2 > 1 entries. -/
theorem c2_counterexample :
    ¬ (∀ st : Server, Reachable 1 0 st → MailboxInv 1 st) := by
  intro hclaim
  have e1 : (register_local_client (Server.new 0) 7 "n" (some false) (some false) 5).2 =
      (⟨0, [(5, ⟨7, "n", 0, []⟩)], [], [], []⟩ : Server) := by rfl
  have e2 : (handle_client_message 1 ⟨0, [(5, ⟨7, "n", 0, []⟩)], [], [], []⟩ 5
        (ClientMessage.Text 5 "x")).2 =
      (⟨0, [(5, ⟨7, "n", 0, [(5, "x")]⟩)], [], [], []⟩ : Server) := by rfl
  have e3 : (handle_server_message ⟨0, [(5, ⟨7, "n", 0, [(5, "x")]⟩)], [], [], []⟩
        (ServerMessage.Message ⟨9, 9, [(5, 9)], "y"⟩)).2 =
      (⟨0, [(5, ⟨7, "n", 0, [(5, "x"), (9, "y")]⟩)], [], [], []⟩ : Server) := by rfl
  have h1 : Step 1 (Server.new 0) ⟨0, [(5, ⟨7, "n", 0, []⟩)], [], [], []⟩ :=
    e1 ▸ Step.register (Server.new 0) 7 "n" (some false) (some false) 5
  have h2 : Step 1 (⟨0, [(5, ⟨7, "n", 0, []⟩)], [], [], []⟩ : Server)
      ⟨0, [(5, ⟨7, "n", 0, [(5, "x")]⟩)], [], [], []⟩ :=
    e2 ▸ Step.clientMsg ⟨0, [(5, ⟨7, "n", 0, []⟩)], [], [], []⟩ 5 (ClientMessage.Text 5 "x")
  have h3 : Step 1 (⟨0, [(5, ⟨7, "n", 0, [(5, "x")]⟩)], [], [], []⟩ : Server)
      ⟨0, [(5, ⟨7, "n", 0, [(5, "x"), (9, "y")]⟩)], [], [], []⟩ :=
    e3 ▸ Step.serverMsg ⟨0, [(5, ⟨7, "n", 0, [(5, "x")]⟩)], [], [], []⟩
      (ServerMessage.Message ⟨9, 9, [(5, 9)], "y"⟩)
  have hreach : Reachable 1 0 ⟨0, [(5, ⟨7, "n", 0, [(5, "x"), (9, "y")]⟩)], [], [], []⟩ :=
    Relation.ReflTransGen.tail
      (Relation.ReflTransGen.tail (Relation.ReflTransGen.tail Relation.ReflTransGen.refl h1) h2) h3
  have hbound := hclaim _ hreach (5, ⟨7, "n", 0, [(5, "x"), (9, "y")]⟩) (by simp)
  simp at hbound

end Engine

/-! ## Router lemmas: association lists, traces and paths -/

namespace Engine

theorem alGet_eq_none_iff {β : Type} (l : List (Nat × β)) (k : Nat) :
    alGet l k = none ↔ k ∉ keys l := by
  constructor
  · intro h hk
    induction l with
    | nil => simp [keys] at hk
    | cons p rest ih =>
      by_cases hp : p.1 = k
      · simp [alGet, hp] at h
      · simp only [alGet, if_neg hp] at h
        simp only [keys, List.map_cons, List.mem_cons] at hk
        rcases hk with hk | hk
        · exact hp hk.symm
        · exact ih h hk
  · exact alGet_eq_none l k

theorem alGet_append_left {β : Type} {l : List (Nat × β)} (l' : List (Nat × β))
    {k : Nat} {v : β} (h : alGet l k = some v) : alGet (l ++ l') k = some v := by
  induction l with
  | nil => simp [alGet] at h
  | cons p rest ih =>
    by_cases hp : p.1 = k
    · simp only [alGet, if_pos hp] at h
      simp [alGet, hp, h]
    · simp only [alGet, if_neg hp] at h
      simpa [alGet, hp] using ih h

theorem alGet_append_right {β : Type} {l : List (Nat × β)} (l' : List (Nat × β))
    {k : Nat} (h : alGet l k = none) : alGet (l ++ l') k = alGet l' k := by
  induction l with
  | nil => simp
  | cons p rest ih =>
    by_cases hp : p.1 = k
    · simp [alGet, hp] at h
    · simp only [alGet, if_neg hp] at h
      simpa [alGet, hp] using ih h

theorem keys_append {β : Type} (l l' : List (Nat × β)) :
    keys (l ++ l') = keys l ++ keys l' := by
  simp [keys]

theorem trace_unique {visited : List (ServerId × Option ServerId)}
    {v : ServerId} {p q : List ServerId}
    (hp : Trace visited v p) (hq : Trace visited v q) : p = q := by
  induction hp generalizing q with
  | root w hw =>
    cases hq with
    | root _ _ => rfl
    | step _ u _ hu _ => rw [hw] at hu; cases hu
  | step w u p hw ht ih =>
    cases hq with
    | root _ hw' => rw [hw] at hw'; cases hw'
    | step _ u' q' hu' ht' =>
      have : u = u' := by rw [hw] at hu'; exact Option.some.inj (Option.some.inj hu')
      subst this
      rw [ih ht']

theorem trace_extend {visited ext : List (ServerId × Option ServerId)}
    {v : ServerId} {p : List ServerId} (h : Trace visited v p) :
    Trace (visited ++ ext) v p := by
  induction h with
  | root w hw => exact Trace.root w (alGet_append_left ext hw)
  | step w u p hw ht ih => exact Trace.step w u p (alGet_append_left ext hw) ih

theorem depth_extend {visited ext : List (ServerId × Option ServerId)}
    {v : ServerId} {n : Nat} (h : depth visited v n) : depth (visited ++ ext) v n := by
  obtain ⟨p, hp, hl⟩ := h
  exact ⟨p, trace_extend hp, hl⟩

theorem depth_unique {visited : List (ServerId × Option ServerId)}
    {v : ServerId} {m n : Nat} (hm : depth visited v m) (hn : depth visited v n) :
    m = n := by
  obtain ⟨p, hp, hpl⟩ := hm
  obtain ⟨q, hq, hql⟩ := hn
  rw [← hpl, ← hql, trace_unique hp hq]

theorem reconstruct_of_trace {visited : List (ServerId × Option ServerId)}
    {v : ServerId} {p : List ServerId} (h : Trace visited v p) :
    ∀ fuel, p.length ≤ fuel → reconstruct visited fuel v = p := by
  induction h with
  | root w hw =>
    intro fuel hfuel
    cases fuel with
    | zero => simp at hfuel
    | succ f => simp [reconstruct, hw]
  | step w u p hw ht ih =>
    intro fuel hfuel
    cases fuel with
    | zero => simp at hfuel
    | succ f =>
      simp only [reconstruct, hw]
      rw [ih f (by simpa using hfuel)]

theorem path_ne_nil {nbrs : ServerId → List ServerId} {a b : ServerId}
    {p : List ServerId} (h : IsPath nbrs a b p) : p ≠ [] := by
  intro hnil
  rw [hnil] at h
  simp [IsPath] at h

theorem path_length_pos {nbrs : ServerId → List ServerId} {a b : ServerId}
    {p : List ServerId} (h : IsPath nbrs a b p) : 1 ≤ p.length := by
  cases p with
  | nil => exact absurd rfl (path_ne_nil h)
  | cons x t => simp

theorem path_singleton (nbrs : ServerId → List ServerId) (a : ServerId) :
    IsPath nbrs a a [a] :=
  ⟨rfl, rfl, List.chain'_singleton a⟩

theorem path_snoc {nbrs : ServerId → List ServerId} {a v w : ServerId}
    {p : List ServerId} (h : IsPath nbrs a v p) (hw : w ∈ nbrs v) :
    IsPath nbrs a w (p ++ [w]) := by
  obtain ⟨hhead, hlast, hchain⟩ := h
  refine ⟨?_, ?_, ?_⟩
  · cases p with
    | nil => simp [IsPath] at hhead
    | cons x t => simpa using hhead
  · simp
  · rw [List.chain'_append]
    refine ⟨hchain, List.chain'_singleton w, ?_⟩
    intro x hx y hy
    rw [hlast] at hx
    cases hx
    simp at hy
    cases hy
    exact hw

theorem path_self_of_singleton {nbrs : ServerId → List ServerId} {a b x : ServerId}
    (h : IsPath nbrs a b [x]) : a = b := by
  obtain ⟨hhead, hlast, -⟩ := h
  simp at hhead hlast
  rw [← hhead, ← hlast]

theorem path_tail {nbrs : ServerId → List ServerId} {a b x y : ServerId}
    {t : List ServerId} (h : IsPath nbrs a b (x :: y :: t)) :
    IsPath nbrs y b (y :: t) ∧ y ∈ nbrs x ∧ x = a := by
  obtain ⟨hhead, hlast, hchain⟩ := h
  rw [List.chain'_cons] at hchain
  refine ⟨⟨rfl, ?_, hchain.2⟩, hchain.1, by simpa using hhead⟩
  simpa [List.getLast?] using hlast

theorem path_closed {nbrs : ServerId → List ServerId} {K : List ServerId}
    (hcl : ∀ v ∈ K, ∀ n ∈ nbrs v, n ∈ K) :
    ∀ {p : List ServerId} {a b : ServerId}, IsPath nbrs a b p → a ∈ K → b ∈ K := by
  intro p
  induction p with
  | nil => intro a b h; exact absurd rfl (path_ne_nil h)
  | cons x t ih =>
    intro a b h ha
    cases t with
    | nil =>
      rw [← path_self_of_singleton h]
      exact ha
    | cons y t' =>
      obtain ⟨htail, hynb, hxa⟩ := path_tail h
      subst hxa
      exact ih htail (hcl x ha y hynb)

theorem exists_transition (S : List ServerId) :
    ∀ (q : List ServerId) (h e : ServerId), q.head? = some h → h ∈ S →
    q.getLast? = some e → e ∉ S →
    ∃ q₁ a b q₂, q = q₁ ++ a :: b :: q₂ ∧ a ∈ S ∧ b ∉ S := by
  intro q
  induction q with
  | nil => intro h e hh; simp at hh
  | cons x t ih =>
    intro h e hh hhS hl helS
    cases t with
    | nil =>
      simp at hh hl
      subst hh
      subst hl
      exact absurd hhS helS
    | cons y t' =>
      simp only [List.head?_cons, Option.some.injEq] at hh
      by_cases hy : y ∈ S
      · obtain ⟨q₁, a, b, q₂, heq, haS, hbS⟩ :=
          ih y e rfl hy (by simpa [List.getLast?] using hl) helS
        exact ⟨x :: q₁, a, b, q₂, by rw [heq]; rfl, haS, hbS⟩
      · exact ⟨[], x, y, t', rfl, hh ▸ hhS, hy⟩

theorem path_prefix {nbrs : ServerId → List ServerId} {self e : ServerId}
    {q₁ q₂ : List ServerId} {a b : ServerId}
    (h : IsPath nbrs self e (q₁ ++ a :: b :: q₂)) :
    IsPath nbrs self a (q₁ ++ [a]) ∧ b ∈ nbrs a := by
  obtain ⟨hhead, hlast, hchain⟩ := h
  have hchain' := (List.chain'_append.mp
    (by simpa using hchain : List.Chain' (fun u v => v ∈ nbrs u) ((q₁ ++ [a]) ++ b :: q₂)))
  refine ⟨⟨?_, ?_, hchain'.1⟩, ?_⟩
  · cases q₁ with
    | nil => simpa using hhead
    | cons z t => simpa using hhead
  · simp
  · have := hchain'.2.2
    simp only [List.getLast?_append, List.getLast?_singleton] at this
    exact this a rfl b rfl

theorem nodup_length_le {l l' : List ServerId} (hn : l.Nodup)
    (hsub : ∀ a ∈ l, a ∈ l') : l.length ≤ l'.length := by
  classical
  calc l.length = l.toFinset.card := (List.toFinset_card_of_nodup hn).symm
    _ ≤ l'.toFinset.card := Finset.card_le_card (fun a ha => by
        rw [List.mem_toFinset] at ha ⊢
        exact hsub a ha)
    _ ≤ l'.length := l'.toFinset_card_le

theorem forall₂_exists_right {α β : Type} {R : α → β → Prop} :
    ∀ {l : List α} {l' : List β}, List.Forall₂ R l l' → ∀ a ∈ l, ∃ b ∈ l', R a b := by
  intro l l' h
  induction h with
  | nil => intro a ha; simp at ha
  | cons hR hrest ih =>
    intro a ha
    rcases List.mem_cons.mp ha with rfl | ha'
    · exact ⟨_, List.mem_cons_self _ _, hR⟩
    · obtain ⟨b, hb, hab⟩ := ih a ha'
      exact ⟨b, List.mem_cons_of_mem _ hb, hab⟩

end Engine

namespace Engine

theorem forall₂_append_one {α β : Type} {R : α → β → Prop} :
    ∀ {l₁ : List α} {l₂ : List β} {a : α} {b : β},
    List.Forall₂ R l₁ l₂ → R a b → List.Forall₂ R (l₁ ++ [a]) (l₂ ++ [b]) := by
  intro l₁ l₂ a b h hab
  induction h with
  | nil => exact List.Forall₂.cons hab List.Forall₂.nil
  | cons hR hrest ih => exact List.Forall₂.cons hR ih

/-- The crux of BFS optimality: any path from the root to a node `n` that
is still undiscovered while the node `current` of depth `dc` is being
expanded has at least `dc + 1` nodes. -/
theorem new_node_minimal (nbrs : ServerId → List ServerId) (self : ServerId)
    (U : List ServerId) (current : ServerId) (dc : Nat)
    (queue : List ServerId) (visited : List (ServerId × Option ServerId))
    (inv : ExpandInv nbrs self U current dc queue visited)
    (n : ServerId) (hfresh : n ∉ keys visited) :
    ∀ r, IsPath nbrs self n r → dc + 1 ≤ r.length := by
  intro r hr
  have hself : self ∈ keys visited := mem_keys_of_alGet inv.root
  obtain ⟨q₁, a, b, q₂, heq, haS, hbS⟩ :=
    exists_transition (keys visited) r self n hr.1 hself hr.2.1 hfresh
  obtain ⟨hpref, hbnb⟩ := path_prefix (heq ▸ hr)
  obtain ⟨pa, hta, hnodes, hnd, hpath, hmin⟩ := inv.sound_min a haS
  have hlen1 : pa.length ≤ q₁.length + 1 := by simpa using hmin _ hpref
  by_cases hac : a = current
  · have hdca : pa.length = dc := by
      obtain ⟨pc, hpc, hpcl⟩ := inv.current_depth
      rw [hac] at hta
      rw [trace_unique hta hpc, hpcl]
    rw [heq]
    simp only [List.length_append, List.length_cons]
    omega
  · by_cases haq : a ∈ queue
    · obtain ⟨ds, hf₂, hsort, hbound⟩ := inv.queue_depths
      obtain ⟨da, hda_mem, hda⟩ := forall₂_exists_right hf₂ a haq
      have hlen2 : pa.length = da := by
        obtain ⟨pa', hpa', hlen⟩ := hda
        rw [trace_unique hta hpa', hlen]
      have hge : dc ≤ da := (hbound da hda_mem).1
      rw [heq]
      simp only [List.length_append, List.length_cons]
      omega
    · exact absurd (inv.closure a haS hac haq b hbnb) hbS

/-- The inner neighbor loop preserves the expansion invariant, ends with
every neighbor of `current` discovered, and grows queue and visited keys
by the same (fresh) nodes. -/
theorem expand_spec (nbrs : ServerId → List ServerId) (self : ServerId)
    (U : List ServerId) (hU : ∀ v, ∀ n ∈ nbrs v, n ∈ U)
    (current : ServerId) (dc : Nat) :
    ∀ (ns queue : List ServerId) (visited : List (ServerId × Option ServerId)),
    ExpandInv nbrs self U current dc queue visited →
    (∀ n ∈ ns, n ∈ nbrs current) →
    (∀ m ∈ nbrs current, m ∈ ns ∨ m ∈ keys visited) →
    ExpandInv nbrs self U current dc (expand current ns queue visited).1
      (expand current ns queue visited).2 ∧
    (∀ m ∈ nbrs current, m ∈ keys (expand current ns queue visited).2) ∧
    ∃ news, (expand current ns queue visited).1 = queue ++ news ∧
      keys (expand current ns queue visited).2 = keys visited ++ news := by
  intro ns
  induction ns with
  | nil =>
    intro queue visited inv hns hpart
    simp only [expand]
    refine ⟨inv, ?_, [], by simp, by simp⟩
    intro m hm
    rcases hpart m hm with hmem | hmem
    · simp at hmem
    · exact hmem
  | cons n rest ih =>
    intro queue visited inv hns hpart
    have hn_nb : n ∈ nbrs current := hns n (List.mem_cons_self _ _)
    cases hget : alGet visited n with
    | some w =>
      have hskip : expand current (n :: rest) queue visited =
          expand current rest queue visited := by
        simp [expand, hget]
      rw [hskip]
      apply ih queue visited inv (fun m hm => hns m (List.mem_cons_of_mem _ hm))
      intro m hm
      rcases hpart m hm with hmem | hmem
      · rcases List.mem_cons.mp hmem with rfl | h'
        · exact Or.inr (mem_keys_of_alGet hget)
        · exact Or.inl h'
      · exact Or.inr hmem
    | none =>
      have hfresh : n ∉ keys visited := (alGet_eq_none_iff visited n).mp hget
      have hstep : expand current (n :: rest) queue visited =
          expand current rest (queue ++ [n]) (visited ++ [(n, some current)]) := by
        simp [expand, hget]
      rw [hstep]
      have hkeys' : keys (visited ++ [(n, some current)]) = keys visited ++ [n] := by
        simp [keys_append, keys]
      have hgetn : alGet (visited ++ [(n, some current)]) n = some (some current) := by
        rw [alGet_append_right _ hget]
        simp [alGet]
      obtain ⟨pc, htc, hnodesc, hndc, hpathc, hminc⟩ :=
        inv.sound_min current inv.current_mem
      have hpc_len : pc.length = dc := by
        obtain ⟨pc', hpc', hl⟩ := inv.current_depth
        rw [trace_unique htc hpc', hl]
      have htrace_n : Trace (visited ++ [(n, some current)]) n (n :: pc) :=
        Trace.step n current pc hgetn (trace_extend htc)
      have hnmin : ∀ r, IsPath nbrs self n r → dc + 1 ≤ r.length :=
        new_node_minimal nbrs self U current dc queue visited inv n hfresh
      have hne_cur : n ≠ current := fun h => hfresh (h ▸ inv.current_mem)
      have hnq : n ∉ queue := fun h => hfresh (inv.queue_sub n h)
      have inv' : ExpandInv nbrs self U current dc (queue ++ [n])
          (visited ++ [(n, some current)]) := by
        constructor
        · rw [hkeys']
          exact List.nodup_append.mpr ⟨inv.nodup_keys, List.nodup_singleton n,
            fun a ha hb => hfresh (by rw [← List.mem_singleton.mp hb]; exact ha)⟩
        · exact List.nodup_append.mpr ⟨inv.nodup_queue, List.nodup_singleton n,
            fun a ha hb => hnq (by rw [← List.mem_singleton.mp hb]; exact ha)⟩
        · intro hmem
          rcases List.mem_append.mp hmem with h | h
          · exact inv.current_not_queue h
          · exact hne_cur (List.mem_singleton.mp h).symm
        · intro v hv
          rw [hkeys']
          rcases List.mem_append.mp hv with h | h
          · exact List.mem_append_left _ (inv.queue_sub v h)
          · exact List.mem_append_right _ h
        · intro v hv hne hvq
          rw [hkeys'] at hv ⊢
          rcases List.mem_append.mp hv with h | h
          · intro m hm
            exact List.mem_append_left _
              (inv.closure v h hne (fun hq => hvq (List.mem_append_left _ hq)) m hm)
          · exact absurd (List.mem_append_right queue h) hvq
        · intro v hv
          rw [hkeys'] at hv
          rcases List.mem_append.mp hv with h | h
          · exact inv.keys_sub v h
          · rw [List.mem_singleton.mp h]
            exact hU current n hn_nb
        · exact alGet_append_left _ inv.root
        · intro v hv
          rw [hkeys'] at hv
          rcases List.mem_append.mp hv with h | h
          · obtain ⟨p, ht, hns', hnd', hpath', hmin'⟩ := inv.sound_min v h
            exact ⟨p, trace_extend ht,
              fun w hw => by rw [hkeys']; exact List.mem_append_left _ (hns' w hw),
              hnd', hpath', hmin'⟩
          · rw [List.mem_singleton.mp h]
            refine ⟨n :: pc, htrace_n, ?_, ?_, ?_, ?_⟩
            · intro w hw
              rw [hkeys']
              rcases List.mem_cons.mp hw with rfl | hw'
              · exact List.mem_append_right _ (List.mem_singleton.mpr rfl)
              · exact List.mem_append_left _ (hnodesc w hw')
            · exact List.nodup_cons.mpr ⟨fun hmem => hfresh (hnodesc n hmem), hndc⟩
            · simpa using path_snoc hpathc hn_nb
            · intro r hr
              have := hnmin r hr
              simp only [List.length_cons]
              omega
        · rw [hkeys']
          exact List.mem_append_left _ inv.current_mem
        · exact depth_extend inv.current_depth
        · obtain ⟨ds, hf₂, hsort, hbnds⟩ := inv.queue_depths
          refine ⟨ds ++ [dc + 1], ?_, ?_, ?_⟩
          · exact forall₂_append_one (hf₂.imp (fun a b h => depth_extend h))
              ⟨n :: pc, htrace_n, by simp [hpc_len]⟩
          · exact List.pairwise_append.mpr ⟨hsort, List.pairwise_singleton _ _,
              fun a ha b hb => by rw [List.mem_singleton.mp hb]; exact (hbnds a ha).2⟩
          · intro b hb
            rcases List.mem_append.mp hb with h | h
            · exact ⟨(hbnds b h).1, (hbnds b h).2⟩
            · rw [List.mem_singleton.mp h]
              omega
      obtain ⟨ih_inv, ih_full, news', ih_q, ih_k⟩ :=
        ih (queue ++ [n]) (visited ++ [(n, some current)]) inv'
          (fun m hm => hns m (List.mem_cons_of_mem _ hm))
          (by
            intro m hm
            rcases hpart m hm with hmem | hmem
            · rcases List.mem_cons.mp hmem with rfl | h'
              · exact Or.inr (by rw [hkeys']; exact List.mem_append_right _ (by simp))
              · exact Or.inl h'
            · exact Or.inr (by rw [hkeys']; exact List.mem_append_left _ hmem))
      refine ⟨ih_inv, ih_full, n :: news', ?_, ?_⟩
      · rw [ih_q]
        simp
      · rw [ih_k, hkeys']
        simp

end Engine

namespace Engine

/-- One iteration of the BFS `while` loop (pop + expand) preserves the
loop invariant, and grows queue and visited keys by the same fresh nodes. -/
theorem bfs_step_spec (nbrs : ServerId → List ServerId) (self : ServerId)
    (U : List ServerId) (hU : ∀ v, ∀ n ∈ nbrs v, n ∈ U)
    (current : ServerId) (rest : List ServerId)
    (visited : List (ServerId × Option ServerId))
    (inv : BfsInv nbrs self U (current :: rest) visited) :
    BfsInv nbrs self U (expand current (nbrs current) rest visited).1
      (expand current (nbrs current) rest visited).2 ∧
    ∃ news, (expand current (nbrs current) rest visited).1 = rest ++ news ∧
      keys (expand current (nbrs current) rest visited).2 = keys visited ++ news := by
  obtain ⟨ds, hf₂, hsort, hhead⟩ := inv.queue_depths
  cases hf₂ with
  | cons hdc hf₂rest =>
    rename_i dc dsr
    have hqnodup := List.nodup_cons.mp inv.nodup_queue
    have einv0 : ExpandInv nbrs self U current dc rest visited := by
      constructor
      · exact inv.nodup_keys
      · exact hqnodup.2
      · exact hqnodup.1
      · exact fun v hv => inv.queue_sub v (List.mem_cons_of_mem _ hv)
      · intro v hv hne hvq
        exact inv.closure v hv (fun hmem => by
          rcases List.mem_cons.mp hmem with h | h
          · exact hne h
          · exact hvq h)
      · exact inv.keys_sub
      · exact inv.root
      · exact inv.sound_min
      · exact inv.queue_sub current (List.mem_cons_self _ _)
      · exact hdc
      · refine ⟨dsr, hf₂rest, hsort.of_cons, ?_⟩
        intro b hb
        constructor
        · exact (List.pairwise_cons.mp hsort).1 b hb
        · exact hhead dc rfl b (List.mem_cons_of_mem _ hb)
    obtain ⟨einv, efull, news, hq, hk⟩ :=
      expand_spec nbrs self U hU current dc (nbrs current) rest visited einv0
        (fun n h => h) (fun m hm => Or.inl hm)
    refine ⟨?_, news, hq, hk⟩
    constructor
    · exact einv.nodup_keys
    · exact einv.nodup_queue
    · exact einv.queue_sub
    · intro v hv hvq n hn
      by_cases hvc : v = current
      · rw [hvc] at hn
        exact efull n hn
      · exact einv.closure v hv hvc hvq n hn
    · exact einv.keys_sub
    · exact einv.root
    · exact einv.sound_min
    · obtain ⟨ds', hf₂', hsort', hbnds'⟩ := einv.queue_depths
      refine ⟨ds', hf₂', hsort', ?_⟩
      intro a ha b hb
      have haMem : a ∈ ds' := List.mem_of_mem_head? ha
      have h1 := (hbnds' a haMem).1
      have h2 := (hbnds' b hb).2
      omega

/-- If the BFS loop returns a path, that path runs from the root to the
destination and is of minimal length; moreover the destination lies in the
universe `U`. -/
theorem bfsAux_some_spec (nbrs : ServerId → List ServerId) (self : ServerId)
    (U : List ServerId) (hU : ∀ v, ∀ n ∈ nbrs v, n ∈ U) (destination : ServerId) :
    ∀ (fuel : Nat) (queue : List ServerId)
      (visited : List (ServerId × Option ServerId)) (p : List ServerId),
    BfsInv nbrs self U queue visited →
    bfsAux nbrs destination fuel queue visited = some p →
    IsPath nbrs self destination p ∧
      (∀ r, IsPath nbrs self destination r → p.length ≤ r.length) ∧
      destination ∈ U := by
  intro fuel
  induction fuel with
  | zero => intro queue visited p inv h; simp [bfsAux] at h
  | succ f ih =>
    intro queue visited p inv h
    cases queue with
    | nil => simp [bfsAux] at h
    | cons current rest =>
      by_cases hdest : current = destination
      · rw [show bfsAux nbrs destination (f + 1) (current :: rest) visited =
            some (reconstruct visited visited.length current).reverse by
          simp [bfsAux, hdest]] at h
        have hmem : current ∈ keys visited :=
          inv.queue_sub current (List.mem_cons_self _ _)
        obtain ⟨p₀, ht, hnodes, hnd, hpath, hmin⟩ := inv.sound_min current hmem
        have hlen : p₀.length ≤ visited.length := by
          have := nodup_length_le hnd hnodes
          simpa [keys] using this
        have hrec : reconstruct visited visited.length current = p₀ :=
          reconstruct_of_trace ht visited.length hlen
        rw [hrec] at h
        have hp : p = p₀.reverse := (Option.some.inj h).symm
        subst hdest
        rw [hp]
        refine ⟨hpath, ?_, inv.keys_sub current hmem⟩
        intro r hr
        simpa using hmin r hr
      · rw [show bfsAux nbrs destination (f + 1) (current :: rest) visited =
            bfsAux nbrs destination f (expand current (nbrs current) rest visited).1
              (expand current (nbrs current) rest visited).2 by
          simp [bfsAux, hdest]] at h
        obtain ⟨inv', -⟩ := bfs_step_spec nbrs self U hU current rest visited inv
        exact ih _ _ p inv' h

/-- If the BFS loop returns `none` (with sufficient fuel), the visited set
extends to a set closed under the edge relation that avoids the
destination. -/
theorem bfsAux_none_spec (nbrs : ServerId → List ServerId) (self : ServerId)
    (U : List ServerId) (hU : ∀ v, ∀ n ∈ nbrs v, n ∈ U) (destination : ServerId) :
    ∀ (fuel : Nat) (queue : List ServerId)
      (visited : List (ServerId × Option ServerId)),
    BfsInv nbrs self U queue visited →
    (destination ∈ keys visited → destination ∈ queue) →
    queue.length + 2 * (U.dedup.length - (keys visited).length) ≤ fuel →
    bfsAux nbrs destination fuel queue visited = none →
    ∃ K : List ServerId, (∀ v ∈ keys visited, v ∈ K) ∧
      (∀ v ∈ K, ∀ n ∈ nbrs v, n ∈ K) ∧ destination ∉ K := by
  intro fuel
  induction fuel with
  | zero =>
    intro queue visited inv hdq hfuel hnone
    have hq : queue = [] := by
      cases queue with
      | nil => rfl
      | cons a t => simp at hfuel
    subst hq
    refine ⟨keys visited, fun v hv => hv, ?_, fun hmem => by simpa using hdq hmem⟩
    intro v hv n hn
    exact inv.closure v hv (by simp) n hn
  | succ f ih =>
    intro queue visited inv hdq hfuel hnone
    cases queue with
    | nil =>
      refine ⟨keys visited, fun v hv => hv, ?_, fun hmem => by simpa using hdq hmem⟩
      intro v hv n hn
      exact inv.closure v hv (by simp) n hn
    | cons current rest =>
      by_cases hdest : current = destination
      · rw [show bfsAux nbrs destination (f + 1) (current :: rest) visited =
            some (reconstruct visited visited.length current).reverse by
          simp [bfsAux, hdest]] at hnone
        cases hnone
      · rw [show bfsAux nbrs destination (f + 1) (current :: rest) visited =
            bfsAux nbrs destination f (expand current (nbrs current) rest visited).1
              (expand current (nbrs current) rest visited).2 by
          simp [bfsAux, hdest]] at hnone
        obtain ⟨inv', news, hqeq, hkeq⟩ :=
          bfs_step_spec nbrs self U hU current rest visited inv
        have hklen : (keys (expand current (nbrs current) rest visited).2).length ≤
            U.dedup.length := by
          apply nodup_length_le inv'.nodup_keys
          intro a ha
          rw [List.mem_dedup]
          exact inv'.keys_sub a ha
        have hkeys_le : (keys visited).length ≤ U.dedup.length := by
          apply nodup_length_le inv.nodup_keys
          intro a ha
          rw [List.mem_dedup]
          exact inv.keys_sub a ha
        have hfuel' : (expand current (nbrs current) rest visited).1.length +
            2 * (U.dedup.length - (keys (expand current (nbrs current) rest visited).2).length) ≤ f := by
          rw [hqeq, hkeq] at *
          simp only [List.length_append, List.length_cons] at *
          omega
        have hdq' : destination ∈ keys (expand current (nbrs current) rest visited).2 →
            destination ∈ (expand current (nbrs current) rest visited).1 := by
          intro hmem
          rw [hkeq] at hmem
          rw [hqeq]
          rcases List.mem_append.mp hmem with h | h
          · have := hdq h
            rcases List.mem_cons.mp this with h' | h'
            · exact absurd h'.symm hdest
            · exact List.mem_append_left _ h'
          · exact List.mem_append_right _ h
        obtain ⟨K, hKsub, hKcl, hKdest⟩ := ih _ _ inv' hdq' hfuel' hnone
        refine ⟨K, ?_, hKcl, hKdest⟩
        intro v hv
        apply hKsub
        rw [hkeq]
        exact List.mem_append_left _ hv

end Engine

namespace Engine

theorem mem_of_zip {a b : ServerId} :
    ∀ {l₁ l₂ : List ServerId}, (a, b) ∈ l₁.zip l₂ → a ∈ l₁ ∧ b ∈ l₂ := by
  intro l₁
  induction l₁ with
  | nil => intro l₂ h; simp at h
  | cons x t ih =>
    intro l₂ h
    cases l₂ with
    | nil => simp at h
    | cons y t' =>
      rcases List.mem_cons.mp h with h' | h'
      · obtain ⟨rfl, rfl⟩ := Prod.mk.injEq .. ▸ (by exact Prod.mk.inj h' : a = x ∧ b = y)
        exact ⟨List.mem_cons_self _ _, List.mem_cons_self _ _⟩
      · obtain ⟨h₁, h₂⟩ := ih h'
        exact ⟨List.mem_cons_of_mem _ h₁, List.mem_cons_of_mem _ h₂⟩

theorem mem_of_getLastQ : ∀ {l : List ServerId} {a : ServerId},
    l.getLast? = some a → a ∈ l := by
  intro l
  induction l with
  | nil => intro a h; cases h
  | cons x t ih =>
    intro a h
    cases t with
    | nil =>
      simp at h
      simp [h]
    | cons y t' =>
      rw [List.getLast?_cons_cons] at h
      exact List.mem_cons_of_mem _ (ih h)

/-- Every recorded push targets a server mentioned in the routes, or the
server itself: the BFS universe is `selfId :: routes.flatten`. -/
theorem neighbors_sub (selfId : ServerId) (routes : List (List ServerId)) :
    ∀ v, ∀ n ∈ neighbors selfId routes v, n ∈ selfId :: routes.flatten := by
  intro v n hn
  simp only [neighbors, List.mem_flatten, List.mem_map] at hn
  obtain ⟨l, ⟨route, hroute, rfl⟩, hnl⟩ := hn
  have hroute_sub : ∀ m ∈ route, m ∈ selfId :: routes.flatten := by
    intro m hm
    exact List.mem_cons_of_mem _ (List.mem_flatten.mpr ⟨route, hroute, hm⟩)
  simp only [routeAdj, List.mem_append] at hnl
  rcases hnl with h | h
  · simp only [List.mem_flatten, List.mem_map] at h
    obtain ⟨l', ⟨w, hw, rfl⟩, hnl'⟩ := h
    obtain ⟨a, b⟩ := w
    obtain ⟨ha, hb⟩ := mem_of_zip hw
    have hb' : b ∈ route := List.mem_of_mem_tail hb
    simp only [List.mem_append] at hnl'
    rcases hnl' with h' | h'
    · by_cases hc : a = v
      · simp only [if_pos hc, List.mem_singleton] at h'
        exact h' ▸ hroute_sub b hb'
      · simp [if_neg hc] at h'
    · by_cases hc : b = v
      · simp only [if_pos hc, List.mem_singleton] at h'
        exact h' ▸ hroute_sub a ha
      · simp [if_neg hc] at h'
  · cases hlast : route.getLast? with
    | none => rw [hlast] at h; simp at h
    | some lastServer =>
      rw [hlast] at h
      have hlmem : lastServer ∈ route := mem_of_getLastQ hlast
      simp only [List.mem_append] at h
      rcases h with h' | h'
      · by_cases hc : selfId = v
        · simp only [if_pos hc, List.mem_singleton] at h'
          exact h' ▸ hroute_sub lastServer hlmem
        · simp [if_neg hc] at h'
      · by_cases hc : lastServer = v
        · simp only [if_pos hc, List.mem_singleton] at h'
          rw [h']
          exact List.mem_cons_self _ _
        · simp [if_neg hc] at h'

/-- The invariant holds at BFS start-up. -/
theorem bfsInv_init (nbrs : ServerId → List ServerId) (self : ServerId)
    (U : List ServerId) (hself : self ∈ U) :
    BfsInv nbrs self U [self] [(self, none)] := by
  have hroot : alGet [(self, (none : Option ServerId))] self = some none := by
    simp [alGet]
  constructor
  · simp [keys]
  · exact List.nodup_singleton _
  · intro v hv
    simp only [List.mem_singleton] at hv
    simp [keys, hv]
  · intro v hv hvq
    simp only [keys, List.map_cons, List.map_nil, List.mem_singleton] at hv
    exact absurd (by simp [hv]) hvq
  · intro v hv
    simp only [keys, List.map_cons, List.map_nil, List.mem_singleton] at hv
    rw [hv]
    exact hself
  · exact hroot
  · intro v hv
    simp only [keys, List.map_cons, List.map_nil, List.mem_singleton] at hv
    subst hv
    refine ⟨[v], Trace.root v hroot, by simp [keys], List.nodup_singleton _, ?_, ?_⟩
    · simpa using path_singleton nbrs v
    · intro r hr
      simpa using path_length_pos hr
  · refine ⟨[1], ?_, ?_, ?_⟩
    · exact List.Forall₂.cons ⟨[self], Trace.root self hroot, rfl⟩ List.Forall₂.nil
    · simp
    · intro a ha b hb
      simp at ha hb
      omega

/-- The BFS loop finds the destination at the head of the queue. -/
theorem bfsAux_found (nbrs : ServerId → List ServerId) (destination : ServerId)
    (fuel : Nat) (rest : List ServerId)
    (visited : List (ServerId × Option ServerId)) :
    bfsAux nbrs destination (fuel + 1) (destination :: rest) visited =
      some (reconstruct visited visited.length destination).reverse := by
  simp [bfsAux]

end Engine

namespace Engine

/-- Claim C6: `route_to(self) = [self]`; `route_to(x) = none` when no
stored route mentions `x` (and `x` is not the server itself, whose trivial
route always exists); and whenever the graph built from the stored routes
plus the implicit self-to-last-hop edges has a path from `self` to `dest`,
`route_to(dest)` returns a path from `self` to `dest` of minimal length
among all such paths. -/
theorem c6_route_to_shortest (selfId x dest : ServerId)
    (routes : List (List ServerId)) :
    route_to selfId routes selfId = some [selfId] ∧
    (x ∉ routes.flatten → x ≠ selfId → route_to selfId routes x = none) ∧
    (∀ q, IsPath (neighbors selfId routes) selfId dest q →
      ∃ p, route_to selfId routes dest = some p ∧ p.head? = some selfId ∧
        p.getLast? = some dest ∧
        ∀ r, IsPath (neighbors selfId routes) selfId dest r → p.length ≤ r.length) := by
  have hU : ∀ v, ∀ n ∈ neighbors selfId routes v, n ∈ selfId :: routes.flatten :=
    neighbors_sub selfId routes
  have hselfU : selfId ∈ selfId :: routes.flatten := List.mem_cons_self _ _
  have hinit : BfsInv (neighbors selfId routes) selfId (selfId :: routes.flatten)
      [selfId] [(selfId, none)] := bfsInv_init _ _ _ hselfU
  refine ⟨?_, ?_, ?_⟩
  · show bfsAux (neighbors selfId routes) selfId
      (2 * (selfId :: routes.flatten).length + 1) [selfId] [(selfId, none)] =
      some [selfId]
    rw [bfsAux_found (neighbors selfId routes) selfId
      (2 * (selfId :: routes.flatten).length) [] [(selfId, none)]]
    have hrec : reconstruct [(selfId, (none : Option ServerId))]
        ([(selfId, (none : Option ServerId))] : List (ServerId × Option ServerId)).length selfId = [selfId] :=
      reconstruct_of_trace (Trace.root selfId (by simp [alGet])) _ (by simp)
    rw [hrec]
    rfl
  · intro hx hxself
    cases hres : route_to selfId routes x with
    | none => rfl
    | some p =>
      exfalso
      have hmemU := (bfsAux_some_spec (neighbors selfId routes) selfId
        (selfId :: routes.flatten) hU x _ _ _ p hinit hres).2.2
      rcases List.mem_cons.mp hmemU with h | h
      · exact hxself h
      · exact hx h
  · intro q hq
    cases hres : route_to selfId routes dest with
    | some p =>
      obtain ⟨hpath, hmin, -⟩ := bfsAux_some_spec (neighbors selfId routes) selfId
        (selfId :: routes.flatten) hU dest _ _ _ p hinit hres
      exact ⟨p, rfl, hpath.1, hpath.2.1, hmin⟩
    | none =>
      exfalso
      have hfuel : ([selfId] : List ServerId).length +
          2 * ((selfId :: routes.flatten).dedup.length -
            (keys [(selfId, (none : Option ServerId))]).length) ≤
          bfsFuel selfId routes := by
        have hd1 : 1 ≤ (selfId :: routes.flatten).dedup.length := by
          have hmem : selfId ∈ (selfId :: routes.flatten).dedup :=
            List.mem_dedup.mpr hselfU
          exact List.length_pos.mpr (List.ne_nil_of_mem hmem)
        have hdle : (selfId :: routes.flatten).dedup.length ≤
            (selfId :: routes.flatten).length :=
          (List.dedup_sublist _).length_le
        simp only [bfsFuel, keys, List.length_singleton, List.map_cons,
          List.map_nil]
        omega
      obtain ⟨K, hKsub, hKcl, hKdest⟩ := bfsAux_none_spec (neighbors selfId routes)
        selfId (selfId :: routes.flatten) hU dest (bfsFuel selfId routes)
        [selfId] [(selfId, none)] hinit
        (fun hmem => by simpa [keys] using hmem) hfuel hres
      exact hKdest (path_closed hKcl hq (hKsub selfId (by simp [keys])))

/-- Witness for C6: server 0 with the single stored route `[2, 1]`
(destination 2, next hop 1): the self route is `[0]`, the unmentioned
server 5 is unreachable, and the path `[0, 1, 2]` to server 2 is found
and is shortest. -/
theorem c6_route_to_shortest_witness :
    route_to 0 [[2, 1]] 0 = some [0] ∧
    route_to 0 [[2, 1]] 5 = none ∧
    (∃ p, route_to 0 [[2, 1]] 2 = some p ∧ p.head? = some 0 ∧
      p.getLast? = some 2 ∧
      ∀ r, IsPath (neighbors 0 [[2, 1]]) 0 2 r → p.length ≤ r.length) := by
  obtain ⟨h1, h2, h3⟩ := c6_route_to_shortest 0 5 2 [[2, 1]]
  exact ⟨h1, h2 (by decide) (by decide), h3 [0, 1, 2] (by
    refine ⟨rfl, rfl, ?_⟩
    rw [List.chain'_cons, List.chain'_cons]
    exact ⟨by decide, by decide, List.chain'_singleton 2⟩)⟩

end Engine
